import Mathlib

/-!
Verification of the parallel Fenwick tree repository (`src/fenwick.h`,
`src/task_scheduler.h`, `src/main.cpp`, `src/generator.h`).

The C++ code is shallowly embedded: the `bits` vector of a tree of logical
size `n` (a `std::vector<int>` of length `n + 1`) is a function `Nat → Int`;
the loops of `add` / `sum` become recursive functions; the OpenMP-parallel
batch executors are sequentialised (each worker writes only to its own
structures, so any interleaving is equivalent to the sequential composition
modelled here); `double` accumulators are embedded as exact rationals (every
value the code stores in them is an integer except the average `total / W`,
and those integers are exactly representable).  C++ `int` indices passed to
the trees are assumed nonnegative (the repository's generator only produces
indices in `[0, N)`), so indices are `Nat`; values are `Int`.
-/

/-- Recursion worker for `lowbit`, structural in a fuel argument so that
concrete instances compute by kernel reduction; `fuel = n` always suffices
because the argument at least halves at each step. -/
def lowbitAux : Nat → Nat → Nat
  | 0, _ => 0
  | fuel + 1, n => if n = 0 then 0 else if n % 2 = 1 then 1 else 2 * lowbitAux fuel (n / 2)

/-- `lowbit x` embeds the C++ idiom `x & -x` (for nonnegative `int x`): the
value of the lowest set bit of `x`, and `0` for `x = 0`. -/
def lowbit (n : Nat) : Nat := lowbitAux n n

theorem lowbitAux_congr : ∀ n f1 f2, n ≤ f1 → n ≤ f2 →
    lowbitAux f1 n = lowbitAux f2 n := by
  intro n
  induction n using Nat.strong_induction_on with
  | _ n ih =>
      intro f1 f2 h1 h2
      match f1, f2 with
      | 0, 0 => rfl
      | 0, g + 1 =>
          have h0 : n = 0 := by omega
          subst h0
          simp [lowbitAux]
      | g + 1, 0 =>
          have h0 : n = 0 := by omega
          subst h0
          simp [lowbitAux]
      | g1 + 1, g2 + 1 =>
          show (if n = 0 then 0 else if n % 2 = 1 then 1 else 2 * lowbitAux g1 (n / 2))
            = (if n = 0 then 0 else if n % 2 = 1 then 1 else 2 * lowbitAux g2 (n / 2))
          by_cases h0 : n = 0
          · simp [h0]
          · by_cases hodd : n % 2 = 1
            · simp [h0, hodd]
            · have hlt : n / 2 < n := Nat.div_lt_self (by omega) (by omega)
              simp only [h0, hodd, if_false]
              rw [ih (n / 2) hlt g1 g2 (by omega) (by omega)]

theorem lowbit_zero : lowbit 0 = 0 := rfl

theorem lowbit_odd {n : Nat} (h : n % 2 = 1) : lowbit n = 1 := by
  have hn : n ≠ 0 := by omega
  obtain ⟨m, rfl⟩ : ∃ m, n = m + 1 := ⟨n - 1, by omega⟩
  show (if m + 1 = 0 then 0 else if (m + 1) % 2 = 1 then 1 else 2 * lowbitAux m ((m + 1) / 2)) = 1
  rw [if_neg hn, if_pos h]

theorem lowbit_even {n : Nat} (hn : n ≠ 0) (h : n % 2 = 0) :
    lowbit n = 2 * lowbit (n / 2) := by
  obtain ⟨m, rfl⟩ : ∃ m, n = m + 1 := ⟨n - 1, by omega⟩
  show (if m + 1 = 0 then 0 else if (m + 1) % 2 = 1 then 1 else 2 * lowbitAux m ((m + 1) / 2))
    = 2 * lowbit ((m + 1) / 2)
  rw [if_neg hn, if_neg (by omega)]
  unfold lowbit
  rw [lowbitAux_congr ((m + 1) / 2) m ((m + 1) / 2) (by omega) (le_refl _)]

/-- `lowbit` of `2 ^ a * m` for odd `m` is `2 ^ a`. -/
theorem lowbit_two_pow_mul (a : Nat) : ∀ m : Nat, m % 2 = 1 →
    lowbit (2 ^ a * m) = 2 ^ a := by
  induction a with
  | zero => intro m hm; simpa using lowbit_odd hm
  | succ a ih =>
      intro m hm
      have hm0 : m ≠ 0 := by omega
      have hne : 2 ^ (a + 1) * m ≠ 0 := by positivity
      have heven : (2 ^ (a + 1) * m) % 2 = 0 := by
        have : 2 ∣ 2 ^ (a + 1) * m := Dvd.dvd.mul_right ⟨2 ^ a, by ring⟩ m
        omega
      have hdiv : 2 ^ (a + 1) * m / 2 = 2 ^ a * m := by
        rw [show 2 ^ (a + 1) * m = 2 * (2 ^ a * m) by ring]
        exact Nat.mul_div_cancel_left _ (by norm_num)
      rw [lowbit_even hne heven, hdiv, ih m hm, pow_succ]
      ring

/-- Every positive natural decomposes as `2 ^ a * m` with `m` odd. -/
theorem exists_two_pow_mul (n : Nat) (hn : n ≠ 0) :
    ∃ a m, m % 2 = 1 ∧ n = 2 ^ a * m := by
  induction n using Nat.strong_induction_on with
  | _ n ih =>
      rcases Nat.even_or_odd n with he | ho
      · have hmod : n % 2 = 0 := Nat.even_iff.mp he
        have h2 : n / 2 < n := Nat.div_lt_self (Nat.pos_of_ne_zero hn) (by omega)
        have hhalf : n / 2 ≠ 0 := by omega
        obtain ⟨a, m, hm, heq⟩ := ih (n / 2) h2 hhalf
        refine ⟨a + 1, m, hm, ?_⟩
        have h3 : n = 2 * (n / 2) := by omega
        rw [h3, heq]; ring
      · exact ⟨0, n, Nat.odd_iff.mp ho, by simp⟩

theorem lowbit_pos {n : Nat} (hn : 0 < n) : 0 < lowbit n := by
  obtain ⟨a, m, hm, rfl⟩ := exists_two_pow_mul n (by omega)
  rw [lowbit_two_pow_mul a m hm]
  positivity

theorem lowbit_dvd (n : Nat) : lowbit n ∣ n := by
  rcases Nat.eq_zero_or_pos n with h0 | hp
  · subst h0; simp [lowbit_zero]
  · obtain ⟨a, m, hm, rfl⟩ := exists_two_pow_mul n (by omega)
    rw [lowbit_two_pow_mul a m hm]
    exact Dvd.intro m rfl

theorem lowbit_le {n : Nat} (hn : 0 < n) : lowbit n ≤ n :=
  Nat.le_of_dvd hn (lowbit_dvd n)

/-- Stepping `x += x & -x` lands on a multiple of `2 * lowbit x`. -/
theorem two_mul_lowbit_dvd {n : Nat} (hn : 0 < n) : 2 * lowbit n ∣ n + lowbit n := by
  obtain ⟨a, m, hm, rfl⟩ := exists_two_pow_mul n (by omega)
  rw [lowbit_two_pow_mul a m hm]
  refine ⟨(m + 1) / 2, ?_⟩
  have h1 : 2 * ((m + 1) / 2) = m + 1 := by omega
  rw [show 2 * 2 ^ a * ((m + 1) / 2) = 2 ^ a * (2 * ((m + 1) / 2)) by ring, h1]
  ring

/-- `lowbit` is the largest power of two dividing `n`. -/
theorem pow_dvd_lowbit {a n : Nat} (hd : 2 ^ a ∣ n) (hn : 0 < n) : 2 ^ a ∣ lowbit n := by
  obtain ⟨b, m, hm, rfl⟩ := exists_two_pow_mul n (by omega)
  rw [lowbit_two_pow_mul b m hm]
  rcases le_or_lt a b with hab | hab
  · exact pow_dvd_pow 2 hab
  · exfalso
    obtain ⟨c, hc⟩ := hd
    have h2 : 2 ^ b * m = 2 ^ b * (2 ^ (a - b) * c) := by
      rw [hc, ← Nat.mul_assoc, ← pow_add]
      congr 2
      omega
    have hmeq : m = 2 ^ (a - b) * c := Nat.eq_of_mul_eq_mul_left (by positivity) h2
    have hab1 : 1 ≤ a - b := by omega
    have : 2 ∣ m := hmeq ▸ Dvd.dvd.mul_right (dvd_pow_self 2 (by omega)) c
    omega

/-- Adding `r < 2 ^ a` to a multiple of `2 ^ a` does not change the lowest set bit. -/
theorem lowbit_add_eq {a : Nat} (K r : Nat) (hK : 2 ^ a ∣ K) (hr0 : 0 < r)
    (hr : r < 2 ^ a) : lowbit (K + r) = lowbit r := by
  obtain ⟨c, s, hs, rfl⟩ := exists_two_pow_mul r (by omega)
  obtain ⟨t, rfl⟩ := hK
  have hcs : 2 ^ c ≤ 2 ^ c * s := Nat.le_mul_of_pos_right _ (by omega)
  have hca : c < a := by
    have := Nat.lt_of_le_of_lt hcs hr
    exact (Nat.pow_lt_pow_iff_right (by norm_num)).mp this
  have hsplit : 2 ^ a * t + 2 ^ c * s = 2 ^ c * (2 ^ (a - c) * t + s) := by
    rw [Nat.mul_add, ← Nat.mul_assoc, ← pow_add]
    congr 3
    omega
  have hodd : (2 ^ (a - c) * t + s) % 2 = 1 := by
    have : 2 ∣ 2 ^ (a - c) * t := Dvd.dvd.mul_right (dvd_pow_self 2 (by omega)) t
    omega
  rw [hsplit, lowbit_two_pow_mul c _ hodd, lowbit_two_pow_mul c s hs]

/-- One step of the Fenwick update walk: `x += x & -x`. -/
def stepUp (x : Nat) : Nat := x + lowbit x

theorem lt_stepUp {x : Nat} (hx : 0 < x) : x < stepUp x := by
  have := lowbit_pos hx
  unfold stepUp
  omega

theorem le_stepUp (x : Nat) : x ≤ stepUp x := Nat.le_add_right x _

/-- `onWalk x k` states that the update walk `x, x + lowbit x, …` visits `k`. -/
def onWalk (x k : Nat) : Prop := ∃ t, stepUp^[t] x = k

theorem onWalk_self (x : Nat) : onWalk x x := ⟨0, rfl⟩

theorem onWalk_le {x k : Nat} (h : onWalk x k) : x ≤ k := by
  obtain ⟨t, rfl⟩ := h
  induction t with
  | zero => simp
  | succ t ih =>
      rw [Function.iterate_succ_apply']
      exact le_trans ih (le_stepUp _)

theorem onWalk_decomp (x k : Nat) : onWalk x k ↔ k = x ∨ onWalk (stepUp x) k := by
  constructor
  · rintro ⟨t, rfl⟩
    cases t with
    | zero => exact Or.inl rfl
    | succ t => exact Or.inr ⟨t, by rw [← Function.iterate_succ_apply]⟩
  · rintro (rfl | ⟨t, rfl⟩)
    · exact onWalk_self _
    · exact ⟨t + 1, by rw [Function.iterate_succ_apply]⟩

/-- The walk from `x` skips nothing in the ancestor set: any `k` strictly
between `x` and `stepUp x` satisfies `k - lowbit k ≥ x`. -/
theorem stepUp_le_of {x k : Nat} (hx : 0 < x) (hxk : x < k)
    (h2 : k - lowbit k < x) : stepUp x ≤ k := by
  by_contra hcon
  push_neg at hcon
  obtain ⟨a, m, hm, hxeq⟩ := exists_two_pow_mul x (by omega)
  have hlb : lowbit x = 2 ^ a := by rw [hxeq]; exact lowbit_two_pow_mul a m hm
  have hdvd : 2 ^ a ∣ x := ⟨m, hxeq⟩
  have hr1 : 0 < k - x := by omega
  have hr2 : k - x < 2 ^ a := by
    have : stepUp x = x + lowbit x := rfl
    omega
  have hlk : lowbit k = lowbit (k - x) := by
    have h := lowbit_add_eq x (k - x) hdvd hr1 hr2
    rw [show x + (k - x) = k by omega] at h
    exact h
  have hle : lowbit (k - x) ≤ k - x := lowbit_le (by omega)
  omega

/-- The walk stays inside the ancestor set. -/
theorem stepUp_mem {x y : Nat} (_hx : 0 < x) (hy : 0 < y) (h1 : x ≤ y)
    (h2 : y - lowbit y < x) : x ≤ stepUp y ∧ stepUp y - lowbit (stepUp y) < x := by
  have hpos : 0 < stepUp y := lt_of_lt_of_le hy (le_stepUp y)
  have hdvd : 2 * lowbit y ∣ stepUp y := two_mul_lowbit_dvd hy
  obtain ⟨a, ha⟩ : ∃ a, lowbit y = 2 ^ a := by
    obtain ⟨a, m, hm, rfl⟩ := exists_two_pow_mul y (by omega)
    exact ⟨a, lowbit_two_pow_mul a m hm⟩
  have hdvd' : 2 ^ (a + 1) ∣ stepUp y := by
    rw [pow_succ, Nat.mul_comm]
    rw [ha] at hdvd
    exact hdvd
  have hlbs : 2 ^ (a + 1) ∣ lowbit (stepUp y) := pow_dvd_lowbit hdvd' hpos
  have hge : 2 * lowbit y ≤ lowbit (stepUp y) := by
    have := Nat.le_of_dvd (lowbit_pos hpos) hlbs
    rw [ha, pow_succ, Nat.mul_comm (2 ^ a) 2] at *
    omega
  have hstep : stepUp y = y + lowbit y := rfl
  constructor
  · exact le_trans h1 (le_stepUp y)
  · omega

theorem onWalk_of : ∀ d x k, k - x = d → 0 < x → x ≤ k → k - lowbit k < x →
    onWalk x k := by
  intro d
  induction d using Nat.strong_induction_on with
  | _ d ih =>
      intro x k hd hx hxk h2
      rcases Nat.eq_or_lt_of_le hxk with heq | hlt
      · exact heq ▸ onWalk_self x
      · have hstep : stepUp x ≤ k := stepUp_le_of hx hlt h2
        have hx' : 0 < stepUp x := lt_of_lt_of_le hx (le_stepUp x)
        have hlt' : x < stepUp x := lt_stepUp hx
        have h2' : k - lowbit k < stepUp x := lt_of_lt_of_le h2 (le_stepUp x)
        have hrec := ih (k - stepUp x) (by omega) (stepUp x) k rfl hx' hstep h2'
        exact (onWalk_decomp x k).mpr (Or.inr hrec)

theorem onWalk_iff {x k : Nat} (hx : 0 < x) :
    onWalk x k ↔ x ≤ k ∧ k - lowbit k < x := by
  constructor
  · rintro ⟨t, rfl⟩
    induction t with
    | zero =>
        simp only [Function.iterate_zero_apply]
        have := lowbit_pos hx
        omega
    | succ t ih =>
        rw [Function.iterate_succ_apply']
        have hw : onWalk x (stepUp^[t] x) := ⟨t, rfl⟩
        have hy : 0 < stepUp^[t] x := lt_of_lt_of_le hx (onWalk_le hw)
        exact stepUp_mem hx hy ih.1 ih.2
  · intro h
    exact onWalk_of (k - x) x k rfl hx h.1 h.2

namespace Fenwick

/-- The loop of `FenwickTreeSequential::add` (src/fenwick.h:30-32):
`for (; x < bits.size(); x += x & -x) bits[x] += val`, where `bits.size()`
is `n + 1`.  Every call site has `x = i + 1 ≥ 1`; the guard `0 < x` (always
true there) makes the recursion well-founded, since the source loop would not
terminate on `x = 0`. -/
def addLoop (n : Nat) (bits : Nat → Int) (x : Nat) (val : Int) : Nat → Int :=
  if _h : 0 < x ∧ x < n + 1 then
    addLoop n (fun j => if j = x then bits j + val else bits j) (x + lowbit x) val
  else bits
termination_by n + 1 - x
decreasing_by
  have := lowbit_pos _h.1
  omega

/-- `FenwickTreeSequential::add` (src/fenwick.h:29-33): `++x` then the loop. -/
def add (n : Nat) (bits : Nat → Int) (i : Nat) (val : Int) : Nat → Int :=
  addLoop n bits (i + 1) val

/-- The loop of `FenwickTreeSequential::sum` (src/fenwick.h:36-40):
`for (; x > 0; x -= x & -x) total += bits[x]`. -/
def sumLoopAux (bits : Nat → Int) : Nat → Nat → Int
  | 0, _ => 0
  | fuel + 1, x => if 0 < x then bits x + sumLoopAux bits fuel (x - lowbit x) else 0

def sumLoop (bits : Nat → Int) (x : Nat) : Int := sumLoopAux bits x x

theorem sumLoopAux_congr (bits : Nat → Int) : ∀ x f1 f2, x ≤ f1 → x ≤ f2 →
    sumLoopAux bits f1 x = sumLoopAux bits f2 x := by
  intro x
  induction x using Nat.strong_induction_on with
  | _ x ih =>
      intro f1 f2 h1 h2
      match f1, f2 with
      | 0, 0 => rfl
      | 0, g + 1 =>
          have h0 : x = 0 := by omega
          subst h0
          simp [sumLoopAux]
      | g + 1, 0 =>
          have h0 : x = 0 := by omega
          subst h0
          simp [sumLoopAux]
      | g1 + 1, g2 + 1 =>
          show (if 0 < x then bits x + sumLoopAux bits g1 (x - lowbit x) else 0)
            = (if 0 < x then bits x + sumLoopAux bits g2 (x - lowbit x) else 0)
          by_cases h0 : 0 < x
          · have hlb := lowbit_pos h0
            simp only [h0, if_true]
            rw [ih (x - lowbit x) (by omega) g1 g2 (by omega) (by omega)]
          · simp [h0]

/-- The defining equation of the `sum` loop. -/
theorem sumLoop_eq (bits : Nat → Int) (x : Nat) :
    sumLoop bits x = if 0 < x then bits x + sumLoop bits (x - lowbit x) else 0 := by
  cases x with
  | zero => rw [if_neg (by omega)]; rfl
  | succ m =>
      show (if 0 < m + 1 then bits (m + 1) + sumLoopAux bits m (m + 1 - lowbit (m + 1)) else 0) = _
      rw [if_pos (by omega), if_pos (by omega)]
      have hlb := lowbit_pos (show 0 < m + 1 by omega)
      unfold sumLoop
      rw [sumLoopAux_congr bits (m + 1 - lowbit (m + 1)) m _ (by omega) (le_refl _)]

/-- `FenwickTreeSequential::sum` (src/fenwick.h:35-41): `++x` then the loop. -/
def sum (bits : Nat → Int) (i : Nat) : Int :=
  sumLoop bits (i + 1)

/-- `FenwickTreeSequential::batchAdd` (src/fenwick.h:43-52) restricted to
update records, and also the effect of submitting a list of `add` calls:
fold `add` over the list. -/
def foldAdd (n : Nat) (bits : Nat → Int) (U : List (Nat × Int)) : Nat → Int :=
  U.foldl (fun b p => add n b p.1 p.2) bits

/-- Cells visited by one `add`: the pointwise effect of `add n · i v` on cell
`k` is adding `v` exactly on the bounded update walk of `i + 1`. -/
theorem addLoop_apply (n : Nat) : ∀ d x bits val k, n + 1 - x = d → 0 < x →
    addLoop n bits x val k
      = bits k + (if x ≤ k ∧ k - lowbit k < x ∧ k ≤ n then val else 0) := by
  intro d
  induction d using Nat.strong_induction_on with
  | _ d ih =>
      intro x bits val k hd hx
      rw [addLoop]
      by_cases hcond : x < n + 1
      · rw [dif_pos ⟨hx, hcond⟩]
        have hlb := lowbit_pos hx
        rw [ih (n + 1 - (x + lowbit x)) (by omega) _ _ _ _ rfl (by omega)]
        by_cases hk : k = x
        · subst hk
          have hf : ¬(k + lowbit k ≤ k ∧ k - lowbit k < k + lowbit k ∧ k ≤ n) := by omega
          have ht : k ≤ k ∧ k - lowbit k < k ∧ k ≤ n := by omega
          rw [if_neg hf, if_pos ht]
          simp
        · simp only [if_neg hk]
          have hiff : (x + lowbit x ≤ k ∧ k - lowbit k < x + lowbit x ∧ k ≤ n)
              ↔ (x ≤ k ∧ k - lowbit k < x ∧ k ≤ n) := by
            constructor
            · rintro ⟨ha, hb, hc⟩
              have h1 : onWalk (stepUp x) k :=
                (onWalk_iff (lt_of_lt_of_le hx (le_stepUp x))).mpr ⟨ha, hb⟩
              have h2 : onWalk x k := (onWalk_decomp x k).mpr (Or.inr h1)
              have h3 := (onWalk_iff hx).mp h2
              exact ⟨h3.1, h3.2, hc⟩
            · rintro ⟨ha, hb, hc⟩
              have h1 : onWalk x k := (onWalk_iff hx).mpr ⟨ha, hb⟩
              have h2 : onWalk (stepUp x) k := by
                rcases (onWalk_decomp x k).mp h1 with heq | hw
                · exact absurd heq hk
                · exact hw
              have h3 := (onWalk_iff (lt_of_lt_of_le hx (le_stepUp x))).mp h2
              exact ⟨h3.1, h3.2, hc⟩
          rw [if_congr hiff rfl rfl]
      · rw [dif_neg (by omega)]
        rw [if_neg (by omega)]
        ring

theorem add_apply (n : Nat) (bits : Nat → Int) (i : Nat) (val : Int) (k : Nat) :
    add n bits i val k
      = bits k + (if i + 1 ≤ k ∧ k - lowbit k < i + 1 ∧ k ≤ n then val else 0) :=
  addLoop_apply n (n + 1 - (i + 1)) (i + 1) bits val k rfl (by omega)

/-- `sumLoop` is additive in the cell array. -/
theorem sumLoop_add (b1 b2 : Nat → Int) : ∀ m,
    sumLoop (fun k => b1 k + b2 k) m = sumLoop b1 m + sumLoop b2 m := by
  intro m
  induction m using Nat.strong_induction_on with
  | _ m ih =>
      by_cases hm : 0 < m
      · have hlb := lowbit_pos hm
        have h1 : sumLoop (fun k => b1 k + b2 k) m
            = (b1 m + b2 m) + sumLoop (fun k => b1 k + b2 k) (m - lowbit m) := by
          rw [sumLoop_eq, if_pos hm]
        have h2 : sumLoop b1 m = b1 m + sumLoop b1 (m - lowbit m) := by
          rw [sumLoop_eq, if_pos hm]
        have h3 : sumLoop b2 m = b2 m + sumLoop b2 (m - lowbit m) := by
          rw [sumLoop_eq, if_pos hm]
        rw [h1, h2, h3, ih (m - lowbit m) (by omega)]
        ring
      · have h1 : sumLoop (fun k => b1 k + b2 k) m = 0 := by rw [sumLoop_eq, if_neg hm]
        have h2 : sumLoop b1 m = 0 := by rw [sumLoop_eq, if_neg hm]
        have h3 : sumLoop b2 m = 0 := by rw [sumLoop_eq, if_neg hm]
        rw [h1, h2, h3]
        ring

theorem sumLoop_zero_fn : ∀ m, sumLoop (fun _ => (0 : Int)) m = 0 := by
  intro m
  induction m using Nat.strong_induction_on with
  | _ m ih =>
      rw [sumLoop_eq]
      by_cases hm : 0 < m
      · have := lowbit_pos hm
        rw [if_pos hm, ih (m - lowbit m) (by omega)]
        ring
      · rw [if_neg hm]

/-- Querying the delta array of a single update: the descending query walk
from `m` meets the bounded update walk of `s` in exactly one cell when
`s ≤ m`, and in none otherwise. -/
theorem sumLoop_single (n s : Nat) (v : Int) (hs : 0 < s) : ∀ m, m ≤ n →
    sumLoop (fun k => if s ≤ k ∧ k - lowbit k < s ∧ k ≤ n then v else 0) m
      = if s ≤ m then v else 0 := by
  intro m
  induction m using Nat.strong_induction_on with
  | _ m ih =>
      intro hmn
      rw [sumLoop_eq]
      by_cases hm : 0 < m
      · have hlb := lowbit_pos hm
        rw [if_pos hm, ih (m - lowbit m) (by omega) (by omega)]
        by_cases hsm : s ≤ m
        · by_cases hin : m - lowbit m < s
          · rw [if_pos ⟨hsm, hin, hmn⟩, if_neg (by omega), if_pos hsm]
            ring
          · rw [if_neg (by omega), if_pos (by omega), if_pos hsm]
            ring
        · rw [if_neg (by omega), if_neg (by omega), if_neg hsm]
          ring
      · rw [if_neg hm, if_neg (by omega)]

/-- The tree built by folding `add` over a batch is the pointwise sum of the
single-update delta arrays. -/
theorem foldAdd_apply (n : Nat) (U : List (Nat × Int)) : ∀ (bits : Nat → Int) (k : Nat),
    foldAdd n bits U k
      = bits k + (U.map (fun p =>
          if p.1 + 1 ≤ k ∧ k - lowbit k < p.1 + 1 ∧ k ≤ n then p.2 else 0)).sum := by
  induction U with
  | nil => intro bits k; simp [foldAdd]
  | cons p rest ih =>
      intro bits k
      show foldAdd n (add n bits p.1 p.2) rest k = _
      rw [ih, add_apply]
      simp only [List.map_cons, List.sum_cons]
      ring

/-- Main Fenwick formula: after folding any batch of updates into the zero
tree, `sum q` returns the total value of updates at logical indices `≤ q`. -/
theorem sum_foldAdd (n : Nat) (U : List (Nat × Int)) (q : Nat) (hq : q < n) :
    sum (foldAdd n (fun _ => 0) U) q
      = (U.map (fun p => if p.1 ≤ q then p.2 else 0)).sum := by
  have htree : foldAdd n (fun _ => 0) U = fun k => (U.map (fun p =>
      if p.1 + 1 ≤ k ∧ k - lowbit k < p.1 + 1 ∧ k ≤ n then p.2 else 0)).sum := by
    funext k
    rw [foldAdd_apply]
    ring
  unfold sum
  rw [htree]
  have hlist : ∀ (V : List (Nat × Int)) (m : Nat), m ≤ n →
      sumLoop (fun k => (V.map (fun p =>
        if p.1 + 1 ≤ k ∧ k - lowbit k < p.1 + 1 ∧ k ≤ n then p.2 else 0)).sum) m
      = (V.map (fun p => if p.1 + 1 ≤ m then p.2 else 0)).sum := by
    intro V
    induction V with
    | nil => intro m hm; simpa using sumLoop_zero_fn m
    | cons p rest ihV =>
        intro m hm
        simp only [List.map_cons, List.sum_cons]
        have hsplit : (fun k => (if p.1 + 1 ≤ k ∧ k - lowbit k < p.1 + 1 ∧ k ≤ n then p.2 else 0)
            + (rest.map (fun r =>
                if r.1 + 1 ≤ k ∧ k - lowbit k < r.1 + 1 ∧ k ≤ n then r.2 else 0)).sum)
            = fun k => (if p.1 + 1 ≤ k ∧ k - lowbit k < p.1 + 1 ∧ k ≤ n then p.2 else 0)
            + (rest.map (fun r =>
                if r.1 + 1 ≤ k ∧ k - lowbit k < r.1 + 1 ∧ k ≤ n then r.2 else 0)).sum := rfl
        rw [sumLoop_add, ihV m hm, sumLoop_single n (p.1 + 1) p.2 (by omega) m hm]
  rw [hlist U (q + 1) (by omega)]
  congr 1
  apply List.map_congr_left
  intro p _
  exact if_congr (by omega) rfl rfl

end Fenwick

/-- C1: For every `N ≥ 1` and every finite sequence of update operations
`(i₁,v₁), …, (iₘ,vₘ)` with each `iₖ ∈ [0, N)`, applied in any order (the list
`U` ranges over all orders) via `FenwickTreeSequential::add`, a subsequent
`sum(i)` for any `i ∈ [0, N)` returns the sum of all `vₖ` whose `iₖ ≤ i`. -/
theorem c1_sequential_sum (N : Nat) (U : List (Nat × Int)) (i : Nat)
    (hN : 1 ≤ N) (hU : ∀ p ∈ U, p.1 < N) (hi : i < N) :
    Fenwick.sum (Fenwick.foldAdd N (fun _ => 0) U) i
      = (U.map (fun p => if p.1 ≤ i then p.2 else 0)).sum :=
  Fenwick.sum_foldAdd N U i hi

theorem c1_witness :
    Fenwick.sum (Fenwick.foldAdd 4 (fun _ => 0) [(2, 5), (0, 2), (1, -1), (3, 7)]) 1 = 1 := by
  rw [c1_sequential_sum 4 [(2, 5), (0, 2), (1, -1), (3, 7)] 1 (by norm_num) (by decide)
    (by norm_num)]
  decide

/-- `struct Operation` (src/generator.h:6-10): `command` is `'a'` (add) or
`'q'` (query), `index ∈ [0, N)`, `value` used only for adds. -/
structure Operation where
  command : Char
  index : Nat
  value : Int

/-- The update records of a batch, in order: the operations the drivers in
`src/main.cpp` and `src/task_scheduler.h` route through `add`
(`op.command == 'a'`). -/
def updatesOf (ops : List Operation) : List (Nat × Int) :=
  (ops.filter (fun op => op.command = 'a')).map (fun op => (op.index, op.value))

/-- State of the sequential reference executor: one
`FenwickTreeSequential` and the recorded query answers. -/
structure SeqState where
  tree : Nat → Int
  results : Nat → Int

/-- One step of the sequential reference executor of `src/main.cpp` (e.g.
lines 332-339): `'a'` ops go through `FenwickTreeSequential::add`, every
other op queries `sum` — here each query's returned value is recorded at its
batch position (the harness only accumulates `seq_res +=`, but the claims
compare the individual query values). -/
def seqStep (n : Nat) (s : SeqState) (op : Operation) (pos : Nat) : SeqState :=
  if op.command = 'a' then
    { tree := Fenwick.add n s.tree op.index op.value, results := s.results }
  else
    { tree := s.tree,
      results := fun p => if p = pos
        then s.results p + Fenwick.sum s.tree op.index else s.results p }

def seqRunAux (n : Nat) : Nat → SeqState → List Operation → SeqState
  | _, s, [] => s
  | pos, s, op :: rest => seqRunAux n (pos + 1) (seqStep n s op pos) rest

/-- The per-position query answers of the sequential executor on a fresh
tree of logical size `n`. -/
def seqRun (n : Nat) (ops : List Operation) : Nat → Int :=
  (seqRunAux n 0 ⟨fun _ => 0, fun _ => 0⟩ ops).results

/-- State of the task schedulers of `src/task_scheduler.h`: `W` private
`FenwickTreeSequential` trees (`local_trees_`), the atomic `results_` array,
and the driver-side round-robin counter (`counter_`). -/
structure SchedState where
  trees : Nat → Nat → Int
  results : Nat → Int
  counter : Nat

/-- Processing of one submitted operation, combining the driver routing
(`Scheduler::submit_update` / `submit_query`, src/task_scheduler.h:72-78) with
the per-worker FIFO processing (`Scheduler::worker_loop`,
src/task_scheduler.h:146-156).  An update is routed to worker
`counter_++ % W` and applied to that worker's private tree; a query at batch
position `pos` is broadcast: every worker computes `sum` on its own tree and
`fetch_add`s the partial into `results_[pos]`.  Because each worker consumes
its FIFO in the driver's submission order, at the moment a worker answers the
query its tree holds exactly the updates routed to it earlier in the batch,
which is what this sequentialisation computes.  `LockFreeScheduler` has the
same task semantics (only the queue implementation differs), and
`DecentralizedScheduler::worker_loop` (src/task_scheduler.h:286-301)
reproduces the same routing with the counter starting at `0`. -/
def schedStep (W n : Nat) (s : SchedState) (op : Operation) (pos : Nat) : SchedState :=
  if op.command = 'a' then
    { trees := fun w => if w = s.counter % W
        then Fenwick.add n (s.trees w) op.index op.value else s.trees w,
      results := s.results,
      counter := s.counter + 1 }
  else
    { trees := s.trees,
      results := fun p => if p = pos
        then s.results p + (Finset.range W).sum (fun w => Fenwick.sum (s.trees w) op.index)
        else s.results p,
      counter := s.counter }

def schedRunAux (W n : Nat) : Nat → SchedState → List Operation → SchedState
  | _, s, [] => s
  | pos, s, op :: rest => schedRunAux W n (pos + 1) (schedStep W n s op pos) rest

/-- Fresh scheduler state: zeroed trees (constructor) and results
(`Scheduler::init`, src/task_scheduler.h:65-70); `c0` is the initial value of
the driver counter, which is not reset between batches. -/
def schedInit (c0 : Nat) : SchedState :=
  { trees := fun _ _ => 0, results := fun _ => 0, counter := c0 }

/-- Run a whole batch through the scheduler and `sync()`. -/
def schedRun (W n c0 : Nat) (ops : List Operation) : SchedState :=
  schedRunAux W n 0 (schedInit c0) ops

/-- `Scheduler::validate_sum` (src/task_scheduler.h:93-99): sum the whole
`results_` array. -/
def validate_sum (batchSize : Nat) (results : Nat → Int) : Int :=
  (Finset.range batchSize).sum (fun i => results i)

/-- The updates among the first operations that round-robin routing sends to
worker `w` when the counter starts at `c`. -/
def routedUpdates (W w : Nat) : Nat → List Operation → List (Nat × Int)
  | _, [] => []
  | c, op :: rest =>
      if op.command = 'a' then
        (if c % W = w then [(op.index, op.value)] else [])
          ++ routedUpdates W w (c + 1) rest
      else routedUpdates W w c rest

theorem schedRunAux_results_lt (W n : Nat) : ∀ (ops : List Operation) (pos : Nat)
    (s : SchedState) (q : Nat), q < pos →
    (schedRunAux W n pos s ops).results q = s.results q := by
  intro ops
  induction ops with
  | nil => intro pos s q hq; rfl
  | cons op rest ih =>
      intro pos s q hq
      show (schedRunAux W n (pos + 1) (schedStep W n s op pos) rest).results q = _
      rw [ih (pos + 1) _ q (by omega)]
      unfold schedStep
      by_cases hc : op.command = 'a'
      · rw [if_pos hc]
      · rw [if_neg hc]
        simp only
        rw [if_neg (by omega)]

theorem foldAdd_append (n : Nat) (bits : Nat → Int) (l1 l2 : List (Nat × Int)) :
    Fenwick.foldAdd n bits (l1 ++ l2) = Fenwick.foldAdd n (Fenwick.foldAdd n bits l1) l2 :=
  List.foldl_append _ _ l1 l2

/-- At the moment the broadcast query at relative position `p` is aggregated,
each worker's private tree holds exactly the updates routed to it among the
first `p` operations. -/
theorem schedRunAux_query (W n : Nat) : ∀ (ops : List Operation) (p : Nat)
    (hp : p < ops.length), (ops.get ⟨p, hp⟩).command ≠ 'a' →
    ∀ (pos : Nat) (s : SchedState),
    (schedRunAux W n pos s ops).results (pos + p)
      = s.results (pos + p)
        + (Finset.range W).sum (fun w =>
            Fenwick.sum
              (Fenwick.foldAdd n (s.trees w) (routedUpdates W w s.counter (ops.take p)))
              (ops.get ⟨p, hp⟩).index) := by
  intro ops
  induction ops with
  | nil => intro p hp; exact absurd hp (by simp)
  | cons op rest ih =>
      intro p hp hq pos s
      cases p with
      | zero =>
          have hc : op.command ≠ 'a' := by simpa using hq
          show (schedRunAux W n (pos + 1) (schedStep W n s op pos) rest).results (pos + 0) = _
          rw [schedRunAux_results_lt W n rest (pos + 1) _ (pos + 0) (by omega)]
          unfold schedStep
          rw [if_neg hc]
          simp only [List.take_zero, List.get_cons_zero]
          rw [if_pos (by omega : pos + 0 = pos)]
          rfl
      | succ p' =>
          have hp' : p' < rest.length := by simpa using hp
          have hq' : (rest.get ⟨p', hp'⟩).command ≠ 'a' := by simpa using hq
          show (schedRunAux W n (pos + 1) (schedStep W n s op pos) rest).results (pos + (p' + 1)) = _
          rw [show pos + (p' + 1) = (pos + 1) + p' by omega]
          rw [ih p' hp' hq' (pos + 1) (schedStep W n s op pos)]
          simp only [List.take_succ_cons, List.get_cons_succ]
          by_cases hc : op.command = 'a'
          · unfold schedStep
            rw [if_pos hc]
            simp only
            congr 1
            apply Finset.sum_congr rfl
            intro w _
            have hroute : routedUpdates W w s.counter (op :: rest.take p')
                = (if s.counter % W = w then [(op.index, op.value)] else [])
                  ++ routedUpdates W w (s.counter + 1) (rest.take p') := by
              show (if op.command = 'a' then _ else _) = _
              rw [if_pos hc]
            rw [hroute]
            by_cases hw : s.counter % W = w
            · rw [if_pos hw, if_pos hw.symm]
              rfl
            · rw [if_neg hw, if_neg (fun h => hw h.symm)]
              rfl
          · unfold schedStep
            rw [if_neg hc]
            simp only
            have hroute : ∀ w, routedUpdates W w s.counter (op :: rest.take p')
                = routedUpdates W w s.counter (rest.take p') := by
              intro w
              show (if op.command = 'a' then _ else _) = _
              rw [if_neg hc]
            rw [if_neg (by omega : ¬ pos + 1 + p' = pos)]
            congr 1
            apply Finset.sum_congr rfl
            intro w _
            rw [hroute w]

/-- Round-robin routing partitions the updates of a batch: summing any
per-update quantity over all workers' routed lists recovers the sum over the
whole update list. -/
theorem routed_partition (W : Nat) (hW : 0 < W) (f : Nat × Int → Int) :
    ∀ (ops : List Operation) (c : Nat),
    (Finset.range W).sum (fun w => ((routedUpdates W w c ops).map f).sum)
      = ((updatesOf ops).map f).sum := by
  intro ops
  induction ops with
  | nil => intro c; simp [routedUpdates, updatesOf]
  | cons op rest ih =>
      intro c
      by_cases hc : op.command = 'a'
      · have hsum : ∀ w, ((routedUpdates W w c (op :: rest)).map f).sum
            = (if c % W = w then f (op.index, op.value) else 0)
              + ((routedUpdates W w (c + 1) rest).map f).sum := by
          intro w
          have hunf : routedUpdates W w c (op :: rest)
              = (if c % W = w then [(op.index, op.value)] else [])
                ++ routedUpdates W w (c + 1) rest := by
            show (if op.command = 'a' then _ else _) = _
            rw [if_pos hc]
          rw [hunf]
          by_cases hw : c % W = w
          · simp [hw]
          · simp [hw]
        rw [Finset.sum_congr rfl (fun w _ => hsum w), Finset.sum_add_distrib]
        rw [Finset.sum_ite_eq (Finset.range W) (c % W) (fun _ => f (op.index, op.value))]
        rw [if_pos (Finset.mem_range.mpr (Nat.mod_lt c hW))]
        rw [ih (c + 1)]
        have hupd : updatesOf (op :: rest) = (op.index, op.value) :: updatesOf rest := by
          simp [updatesOf, hc]
        rw [hupd]
        simp
      · have hunf : ∀ w, routedUpdates W w c (op :: rest) = routedUpdates W w c rest := by
          intro w
          show (if op.command = 'a' then _ else _) = _
          rw [if_neg hc]
        have hupd : updatesOf (op :: rest) = updatesOf rest := by
          simp [updatesOf, hc]
        rw [Finset.sum_congr rfl (fun w _ => by rw [hunf w]), ih c, hupd]

theorem seqRunAux_lt (n : Nat) : ∀ (ops : List Operation) (pos : Nat)
    (s : SeqState) (q : Nat), q < pos →
    (seqRunAux n pos s ops).results q = s.results q := by
  intro ops
  induction ops with
  | nil => intro pos s q hq; rfl
  | cons op rest ih =>
      intro pos s q hq
      show (seqRunAux n (pos + 1) (seqStep n s op pos) rest).results q = _
      rw [ih (pos + 1) _ q (by omega)]
      unfold seqStep
      by_cases hc : op.command = 'a'
      · rw [if_pos hc]
      · rw [if_neg hc]
        simp only
        rw [if_neg (by omega)]

/-- The sequential executor's tree at a query holds exactly the updates that
precede it in the batch. -/
theorem seqRunAux_query (n : Nat) : ∀ (ops : List Operation) (p : Nat)
    (hp : p < ops.length), (ops.get ⟨p, hp⟩).command ≠ 'a' →
    ∀ (pos : Nat) (s : SeqState),
    (seqRunAux n pos s ops).results (pos + p)
      = s.results (pos + p)
        + Fenwick.sum (Fenwick.foldAdd n s.tree (updatesOf (ops.take p)))
            (ops.get ⟨p, hp⟩).index := by
  intro ops
  induction ops with
  | nil => intro p hp; exact absurd hp (by simp)
  | cons op rest ih =>
      intro p hp hq pos s
      cases p with
      | zero =>
          have hc : op.command ≠ 'a' := by simpa using hq
          show (seqRunAux n (pos + 1) (seqStep n s op pos) rest).results (pos + 0) = _
          rw [seqRunAux_lt n rest (pos + 1) _ (pos + 0) (by omega)]
          unfold seqStep
          rw [if_neg hc]
          simp only [List.take_zero, List.get_cons_zero]
          rw [if_pos (by omega : pos + 0 = pos)]
          rfl
      | succ p' =>
          have hp' : p' < rest.length := by simpa using hp
          have hq' : (rest.get ⟨p', hp'⟩).command ≠ 'a' := by simpa using hq
          show (seqRunAux n (pos + 1) (seqStep n s op pos) rest).results (pos + (p' + 1)) = _
          rw [show pos + (p' + 1) = (pos + 1) + p' by omega]
          rw [ih p' hp' hq' (pos + 1) (seqStep n s op pos)]
          simp only [List.take_succ_cons, List.get_cons_succ]
          by_cases hc : op.command = 'a'
          · unfold seqStep
            rw [if_pos hc]
            have hupd : updatesOf (op :: rest.take p')
                = (op.index, op.value) :: updatesOf (rest.take p') := by
              simp [updatesOf, hc]
            rw [hupd]
            rfl
          · unfold seqStep
            rw [if_neg hc]
            have hupd : updatesOf (op :: rest.take p') = updatesOf (rest.take p') := by
              simp [updatesOf, hc]
            rw [hupd]
            simp only
            rw [if_neg (by omega : ¬ pos + 1 + p' = pos)]

/-- C3: For the scheduler executors (`Scheduler` with blocking queues,
`LockFreeScheduler` with SPSC queues — identical task semantics — and
`DecentralizedScheduler`, whose update distribution is the `c0 = 0` case),
for every batch of mixed operations with indices in `[0, N)`: after `sync()`,
the aggregated value at each query's batch position (the sum over all workers
of the per-worker partial sums deposited by `fetch_add` into `results_`)
equals the prefix sum that a sequential `FenwickTreeSequential` executor
returns when processing the same batch up to and including that query. -/
theorem c3_schedulers_refine_sequential (n W c0 : Nat) (ops : List Operation)
    (hW : 0 < W) (hidx : ∀ op ∈ ops, op.index < n)
    (p : Nat) (hp : p < ops.length) (hq : (ops.get ⟨p, hp⟩).command ≠ 'a') :
    (schedRun W n c0 ops).results p = seqRun n ops p := by
  have hqi : (ops.get ⟨p, hp⟩).index < n := hidx _ (List.get_mem ops p hp)
  unfold schedRun seqRun
  have h1 := schedRunAux_query W n ops p hp hq 0 (schedInit c0)
  have h2 := seqRunAux_query n ops p hp hq 0 ⟨fun _ => 0, fun _ => 0⟩
  simp only [Nat.zero_add] at h1 h2
  rw [h1, h2]
  have e1 : (schedInit c0).results p = 0 := rfl
  rw [e1]
  have hform : ∀ w, Fenwick.sum
      (Fenwick.foldAdd n ((schedInit c0).trees w) (routedUpdates W w (schedInit c0).counter (ops.take p)))
      (ops.get ⟨p, hp⟩).index
      = ((routedUpdates W w c0 (ops.take p)).map
          (fun u => if u.1 ≤ (ops.get ⟨p, hp⟩).index then u.2 else 0)).sum := by
    intro w
    exact Fenwick.sum_foldAdd n _ _ hqi
  rw [Finset.sum_congr rfl (fun w _ => hform w)]
  rw [routed_partition W hW _ (ops.take p) c0]
  rw [Fenwick.sum_foldAdd n _ _ hqi]

theorem c3_witness :
    (∀ op ∈ [Operation.mk 'a' 0 1, Operation.mk 'a' 3 2, Operation.mk 'q' 7 0,
        Operation.mk 'a' 5 4, Operation.mk 'q' 7 0], op.index < 8)
    ∧ (schedRun 2 8 0 [Operation.mk 'a' 0 1, Operation.mk 'a' 3 2, Operation.mk 'q' 7 0,
        Operation.mk 'a' 5 4, Operation.mk 'q' 7 0]).results 2
      = seqRun 8 [Operation.mk 'a' 0 1, Operation.mk 'a' 3 2, Operation.mk 'q' 7 0,
        Operation.mk 'a' 5 4, Operation.mk 'q' 7 0] 2 :=
  ⟨by decide, c3_schedulers_refine_sequential 8 2 0 _ (by norm_num) (by decide) 2
    (by norm_num) (by decide)⟩

/-- Whether batch position `p` was submitted as a query
(`operations[p].command != 'a'`, cf. src/main.cpp:344-351). -/
def isQueryPos (ops : List Operation) (p : Nat) : Bool :=
  match ops.get? p with
  | some op => op.command != 'a'
  | none => false

/-- Positions never submitted as queries are not written by any worker. -/
theorem schedRunAux_frame (W n : Nat) : ∀ (ops : List Operation) (pos : Nat)
    (s : SchedState) (q : Nat), (q < pos ∨ isQueryPos ops (q - pos) = false) →
    (schedRunAux W n pos s ops).results q = s.results q := by
  intro ops
  induction ops with
  | nil => intro pos s q _; rfl
  | cons op rest ih =>
      intro pos s q hq
      show (schedRunAux W n (pos + 1) (schedStep W n s op pos) rest).results q = _
      have hnext : q < pos + 1 ∨ isQueryPos rest (q - (pos + 1)) = false := by
        rcases hq with h | h
        · left; omega
        · by_cases hqpos : q ≤ pos
          · left; omega
          · right
            have heq : q - pos = (q - (pos + 1)) + 1 := by omega
            rw [heq] at h
            simpa [isQueryPos] using h
      rw [ih (pos + 1) _ q hnext]
      unfold schedStep
      by_cases hc : op.command = 'a'
      · rw [if_pos hc]
      · rw [if_neg hc]
        simp only
        rw [if_neg ?hne]
        case hne =>
          intro heq
          subst heq
          rcases hq with h | h
          · omega
          · simp [isQueryPos] at h
            exact hc h

/-- C10: After `Scheduler::init()` zeroes the results vector, processing any
batch writes (via `fetch_add`) only to result positions that were submitted
as queries; every position that was never submitted as a query still holds
`0` after `sync()`, and consequently `validate_sum()`, which sums all
`batch_size` positions, returns exactly the sum of the aggregated query
results. -/
theorem c10_results_frame_validate (n W c0 : Nat) (ops : List Operation) :
    (∀ p : Nat, isQueryPos ops p = false → (schedRun W n c0 ops).results p = 0)
    ∧ validate_sum ops.length (schedRun W n c0 ops).results
      = ((Finset.range ops.length).filter (fun p => isQueryPos ops p = true)).sum
          (fun p => (schedRun W n c0 ops).results p) := by
  have hzero : ∀ p : Nat, isQueryPos ops p = false → (schedRun W n c0 ops).results p = 0 := by
    intro p hp
    unfold schedRun
    rw [schedRunAux_frame W n ops 0 _ p (Or.inr (by simpa using hp))]
    rfl
  refine ⟨hzero, ?_⟩
  unfold validate_sum
  rw [← Finset.sum_filter_add_sum_filter_not (Finset.range ops.length)
    (fun p => isQueryPos ops p = true) (fun p => (schedRun W n c0 ops).results p)]
  have hz : ((Finset.range ops.length).filter
      (fun p => ¬ isQueryPos ops p = true)).sum
        (fun p => (schedRun W n c0 ops).results p) = 0 := by
    apply Finset.sum_eq_zero
    intro p hp
    have hfalse : isQueryPos ops p = false := by
      have := (Finset.mem_filter.mp hp).2
      simpa using this
    exact hzero p hfalse
  rw [hz]
  ring

theorem c10_witness :
    isQueryPos [Operation.mk 'a' 1 2, Operation.mk 'q' 3 0] 0 = false
    ∧ (schedRun 2 4 0 [Operation.mk 'a' 1 2, Operation.mk 'q' 3 0]).results 0 = 0 :=
  ⟨by decide, (c10_results_frame_validate 4 2 0
    [Operation.mk 'a' 1 2, Operation.mk 'q' 3 0]).1 0 (by decide)⟩

/-- Modelled from the spec: the class `FenwickTreeLSync` (created by
`CreateFenwickTree "lazy"`, src/main.cpp:44-46) is used by the lazy driver
but its definition is not under `src/`.  Per spec §4.7 (`FenwickLazyAtomic`,
C7) its cell array holds atomic 32-bit integers, `add` performs `fetch_add`
on each cell of the standard update walk and `sum` issues atomic loads along
the standard query walk; since the driver never runs `sum` concurrently with
an `add`, its sequential behaviour is the standard Fenwick `add`/`sum`. -/
def FenwickTreeLSync.add (n : Nat) (bits : Nat → Int) (i : Nat) (v : Int) : Nat → Int :=
  Fenwick.add n bits i v

/-- Modelled from the spec: `FenwickTreeLSync::sum`, see
`FenwickTreeLSync.add`. -/
def FenwickTreeLSync.sum (bits : Nat → Int) (i : Nat) : Int :=
  Fenwick.sum bits i

/-- The parallel flush of the lazy driver (src/main.cpp:289-292 and 297-300):
`for (i = left; i < right; i++) test_tree->add(operations[i].index,
operations[i].value)`.  The flush is an OpenMP parallel-for over atomic
`fetch_add` cells; its net effect is order-independent, and it is embedded as
the left fold of the buffered updates. -/
def flushWindow (n : Nat) (bits : Nat → Int) (w : List (Nat × Int)) : Nat → Int :=
  w.foldl (fun b p => FenwickTreeLSync.add n b p.1 p.2) bits

/-- State of the lazy-batch window driver (src/main.cpp:284-301): the lazy
tree, the buffered update window `[left, right)`, and the per-position query
answers (the harness accumulates `test_res +=`; the claim compares each
query's returned value). -/
structure LazyState where
  tree : Nat → Int
  window : List (Nat × Int)
  results : Nat → Int

/-- One iteration of the window loop: a query flushes the window, then
queries the tree; any other operation is appended to the window. -/
def lazyStep (n : Nat) (s : LazyState) (op : Operation) (pos : Nat) : LazyState :=
  if op.command = 'q' then
    { tree := flushWindow n s.tree s.window,
      window := [],
      results := fun p => if p = pos
        then s.results p + FenwickTreeLSync.sum (flushWindow n s.tree s.window) op.index
        else s.results p }
  else
    { tree := s.tree,
      window := s.window ++ [(op.index, op.value)],
      results := s.results }

/-- The window loop; the final flush after the loop (src/main.cpp:297-300)
only modifies the tree, never `results`, so the recorded query answers of the
full driver are those of the loop. -/
def lazyRunAux (n : Nat) : Nat → LazyState → List Operation → LazyState
  | _, s, [] => s
  | pos, s, op :: rest => lazyRunAux n (pos + 1) (lazyStep n s op pos) rest

def lazyRun (n : Nat) (ops : List Operation) : Nat → Int :=
  (lazyRunAux n 0 ⟨fun _ => 0, [], fun _ => 0⟩ ops).results

/-- The operations the lazy driver buffers as updates (everything that is
not a `'q'`). -/
def lazyUpdates (ops : List Operation) : List (Nat × Int) :=
  (ops.filter (fun op => op.command ≠ 'q')).map (fun op => (op.index, op.value))

theorem lazyRunAux_lt (n : Nat) : ∀ (ops : List Operation) (pos : Nat)
    (s : LazyState) (q : Nat), q < pos →
    (lazyRunAux n pos s ops).results q = s.results q := by
  intro ops
  induction ops with
  | nil => intro pos s q hq; rfl
  | cons op rest ih =>
      intro pos s q hq
      show (lazyRunAux n (pos + 1) (lazyStep n s op pos) rest).results q = _
      rw [ih (pos + 1) _ q (by omega)]
      unfold lazyStep
      by_cases hc : op.command = 'q'
      · rw [if_pos hc]
        simp only
        rw [if_neg (by omega)]
      · rw [if_neg hc]

/-- At a query, the lazy tree holds the initial tree plus the pending window
plus every update buffered among the preceding operations. -/
theorem lazyRunAux_query (n : Nat) : ∀ (ops : List Operation) (p : Nat)
    (hp : p < ops.length), (ops.get ⟨p, hp⟩).command = 'q' →
    ∀ (pos : Nat) (s : LazyState),
    (lazyRunAux n pos s ops).results (pos + p)
      = s.results (pos + p)
        + Fenwick.sum
            (Fenwick.foldAdd n s.tree (s.window ++ lazyUpdates (ops.take p)))
            (ops.get ⟨p, hp⟩).index := by
  intro ops
  induction ops with
  | nil => intro p hp; exact absurd hp (by simp)
  | cons op rest ih =>
      intro p hp hq pos s
      cases p with
      | zero =>
          have hc : op.command = 'q' := by simpa using hq
          show (lazyRunAux n (pos + 1) (lazyStep n s op pos) rest).results (pos + 0) = _
          rw [lazyRunAux_lt n rest (pos + 1) _ (pos + 0) (by omega)]
          unfold lazyStep
          rw [if_pos hc]
          simp only [List.take_zero, List.get_cons_zero]
          rw [if_pos (by omega : pos + 0 = pos)]
          have hwin : lazyUpdates ([] : List Operation) = [] := rfl
          rw [hwin, List.append_nil]
          rfl
      | succ p' =>
          have hp' : p' < rest.length := by simpa using hp
          have hq' : (rest.get ⟨p', hp'⟩).command = 'q' := by simpa using hq
          show (lazyRunAux n (pos + 1) (lazyStep n s op pos) rest).results (pos + (p' + 1)) = _
          rw [show pos + (p' + 1) = (pos + 1) + p' by omega]
          rw [ih p' hp' hq' (pos + 1) (lazyStep n s op pos)]
          simp only [List.take_succ_cons, List.get_cons_succ]
          by_cases hc : op.command = 'q'
          · unfold lazyStep
            rw [if_pos hc]
            simp only
            rw [if_neg (by omega : ¬ pos + 1 + p' = pos)]
            have hupd : lazyUpdates (op :: rest.take p') = lazyUpdates (rest.take p') := by
              simp [lazyUpdates, hc]
            rw [hupd, List.nil_append]
            have htree : Fenwick.foldAdd n (flushWindow n s.tree s.window)
                (lazyUpdates (rest.take p'))
                = Fenwick.foldAdd n s.tree (s.window ++ lazyUpdates (rest.take p')) := by
              rw [foldAdd_append]
              rfl
            rw [htree]
          · unfold lazyStep
            rw [if_neg hc]
            simp only
            have hupd : lazyUpdates (op :: rest.take p')
                = (op.index, op.value) :: lazyUpdates (rest.take p') := by
              simp [lazyUpdates, hc]
            rw [hupd]
            have hassoc : s.window ++ [(op.index, op.value)] ++ lazyUpdates (rest.take p')
                = s.window ++ ((op.index, op.value) :: lazyUpdates (rest.take p')) := by
              simp
            rw [hassoc]

theorem lazyUpdates_eq_updatesOf : ∀ (ops : List Operation),
    (∀ op ∈ ops, op.command = 'a' ∨ op.command = 'q') →
    lazyUpdates ops = updatesOf ops := by
  intro ops
  induction ops with
  | nil => intro _; rfl
  | cons op rest ih =>
      intro hcmd
      have hrest := ih (fun o ho => hcmd o (List.mem_cons_of_mem op ho))
      rcases hcmd op (List.mem_cons_self op rest) with ha | hqq
      · have h1 : lazyUpdates (op :: rest) = (op.index, op.value) :: lazyUpdates rest := by
          simp [lazyUpdates, ha]
        have h2 : updatesOf (op :: rest) = (op.index, op.value) :: updatesOf rest := by
          simp [updatesOf, ha]
        rw [h1, h2, hrest]
      · have h1 : lazyUpdates (op :: rest) = lazyUpdates rest := by
          simp [lazyUpdates, hqq]
        have h2 : updatesOf (op :: rest) = updatesOf rest := by
          simp [updatesOf, hqq]
        rw [h1, h2, hrest]

/-- C4: For every batch of mixed operations processed by the lazy-batch
window driver (src/main.cpp:284-301: buffer consecutive updates in a window
`[left, right)`; on encountering a query, apply every buffered update to the
tree, then call `sum` on the query index; after the loop, apply the
remaining window), each query's returned value equals the sum of the values
of all updates that precede that query in the batch and whose index is `≤`
the query index, identical to a sequential executor's answer for that
query. -/
theorem c4_lazy_window_refines_sequential (n : Nat) (ops : List Operation)
    (hcmd : ∀ op ∈ ops, op.command = 'a' ∨ op.command = 'q')
    (hidx : ∀ op ∈ ops, op.index < n)
    (p : Nat) (hp : p < ops.length) (hq : (ops.get ⟨p, hp⟩).command = 'q') :
    lazyRun n ops p
      = ((updatesOf (ops.take p)).map
          (fun u => if u.1 ≤ (ops.get ⟨p, hp⟩).index then u.2 else 0)).sum
    ∧ lazyRun n ops p = seqRun n ops p := by
  have hqi : (ops.get ⟨p, hp⟩).index < n := hidx _ (List.get_mem ops p hp)
  have hqa : (ops.get ⟨p, hp⟩).command ≠ 'a' := by
    rw [hq]
    decide
  have hcmd' : ∀ op ∈ ops.take p, op.command = 'a' ∨ op.command = 'q' :=
    fun o ho => hcmd o (List.mem_of_mem_take ho)
  have h1 := lazyRunAux_query n ops p hp hq 0 ⟨fun _ => 0, [], fun _ => 0⟩
  have h2 := seqRunAux_query n ops p hp hqa 0 ⟨fun _ => 0, fun _ => 0⟩
  simp only [Nat.zero_add] at h1 h2
  unfold lazyRun seqRun
  rw [h1, h2]
  simp only [List.nil_append]
  rw [lazyUpdates_eq_updatesOf (ops.take p) hcmd']
  constructor
  · rw [Fenwick.sum_foldAdd n _ _ hqi]
    simp
  · rfl

theorem c4_witness :
    (∀ op ∈ [Operation.mk 'a' 0 1, Operation.mk 'a' 3 2, Operation.mk 'q' 7 0,
        Operation.mk 'a' 5 4, Operation.mk 'q' 7 0], op.command = 'a' ∨ op.command = 'q')
    ∧ lazyRun 8 [Operation.mk 'a' 0 1, Operation.mk 'a' 3 2, Operation.mk 'q' 7 0,
        Operation.mk 'a' 5 4, Operation.mk 'q' 7 0] 2
      = seqRun 8 [Operation.mk 'a' 0 1, Operation.mk 'a' 3 2, Operation.mk 'q' 7 0,
        Operation.mk 'a' 5 4, Operation.mk 'q' 7 0] 2 :=
  ⟨by decide, (c4_lazy_window_refines_sequential 8 _ (by decide) (by decide) 2
    (by norm_num) (by decide)).2⟩

/-- `FenwickTreeSequential::FenwickTreeSequential(int n)` (src/fenwick.h:27):
`bits(n + 1, 0)`.  The constructor body performs no validation of `n` and has
no failure path; it always produces an object whose `bits` vector (of size
`n + 1`) is zeroed.  The state is the pair (logical size, cell array).
`n = 0` realises the claim's `N ≤ 0` boundary; for negative `n` the C++
`std::vector` size computation wraps around (undefined behaviour, outside
this model). -/
def FenwickTreeSequential.new (n : Nat) : Nat × (Nat → Int) :=
  (n, fun _ => 0)

theorem add_zero_size (bits : Nat → Int) (i : Nat) (v : Int) :
    Fenwick.add 0 bits i v = bits := by
  funext k
  rw [Fenwick.add_apply]
  rw [if_neg (by omega)]
  ring

theorem foldAdd_zero_size (U : List (Nat × Int)) : ∀ (bits : Nat → Int),
    Fenwick.foldAdd 0 bits U = bits := by
  induction U with
  | nil => intro bits; rfl
  | cons p rest ih =>
      intro bits
      show Fenwick.foldAdd 0 (Fenwick.add 0 bits p.1 p.2) rest = bits
      rw [add_zero_size, ih bits]

/-- Bounds-checked embedding of the `sum` loop (src/fenwick.h:36-40):
`for (; x > 0; x -= x & -x) total += bits[x]`.  Each iteration reads
`bits[x]`, which is inside the `bits` vector only when `x < size`
(`size = bits.size() = n + 1`); the loop has no bounds check of its own, so
an iteration with `x ≥ size` reads out of bounds — undefined behaviour in
the source, `none` here. -/
def sumLoopChecked (size : Nat) (bits : Nat → Int) : Nat → Nat → Option Int
  | 0, _ => some 0
  | fuel + 1, x =>
      if 0 < x then
        if x < size then
          (sumLoopChecked size bits fuel (x - lowbit x)).map (fun t => bits x + t)
        else none
      else some 0

/-- `FenwickTreeSequential::sum` (src/fenwick.h:35-41) with each element
access bounds-checked against `size = bits.size()`. -/
def sumChecked (size : Nat) (bits : Nat → Int) (i : Nat) : Option Int :=
  sumLoopChecked size bits (i + 1) (i + 1)

/-- On the valid domain the checked model agrees with the total one: the
`sum` walk only descends, so a start index inside the vector keeps every
access inside the vector. -/
theorem sumLoopChecked_eq (size : Nat) (bits : Nat → Int) :
    ∀ fuel x, x < size →
      sumLoopChecked size bits fuel x = some (Fenwick.sumLoopAux bits fuel x) := by
  intro fuel
  induction fuel with
  | zero => intro x _; rfl
  | succ fuel ih =>
      intro x hx
      show (if 0 < x then
          if x < size then
            (sumLoopChecked size bits fuel (x - lowbit x)).map (fun t => bits x + t)
          else none
        else some 0) = _
      rw [show Fenwick.sumLoopAux bits (fuel + 1) x
          = if 0 < x then bits x + Fenwick.sumLoopAux bits fuel (x - lowbit x) else 0
        from rfl]
      by_cases h0 : 0 < x
      · rw [if_pos h0, if_pos hx, if_pos h0, ih (x - lowbit x) (by omega)]
        rfl
      · rw [if_neg h0, if_neg h0]

theorem sumChecked_eq (n : Nat) (bits : Nat → Int) (i : Nat) (hi : i < n) :
    sumChecked (n + 1) bits i = some (Fenwick.sum bits i) :=
  sumLoopChecked_eq (n + 1) bits (i + 1) (i + 1) (by omega)

/-- A query whose start index `i + 1` is at or past `bits.size()` reads out
of bounds on its very first iteration. -/
theorem sumChecked_oob (size : Nat) (bits : Nat → Int) (i : Nat)
    (hi : size ≤ i + 1) : sumChecked size bits i = none := by
  show (if 0 < i + 1 then
      if i + 1 < size then
        (sumLoopChecked size bits i (i + 1 - lowbit (i + 1))).map (fun t => bits (i + 1) + t)
      else none
    else some 0) = none
  rw [if_pos (by omega), if_neg (by omega)]

/-- C9 counterexample: the claim states that constructors fail synchronously
on `W ≤ 0`, `N ≤ 0` or `batch_size ≤ 0`; but `FenwickTreeSequential(0)` (the
`N ≤ 0` boundary) contains no check and no failure path: it produces an
object with a zeroed size-1 `bits` vector; `add` on it is a harmless no-op
(the loop guard `x < bits.size()` fails before any element access); and no
error surfaces until the object is used — `sum(0)` reads `bits[1]` out of
bounds (undefined behaviour), which is not a synchronously reported
construction error. -/
theorem c9_counterexample :
    (FenwickTreeSequential.new 0).2 = (fun _ => (0 : Int))
    ∧ Fenwick.add 0 (FenwickTreeSequential.new 0).2 0 5 = (FenwickTreeSequential.new 0).2
    ∧ sumChecked 1 (FenwickTreeSequential.new 0).2 0 = none := by
  refine ⟨rfl, add_zero_size _ 0 5, ?_⟩
  exact sumChecked_oob 1 _ 0 (by omega)

/-- C9 (amended): the executor constructors perform no configuration
validation and construction never fails: `FenwickTreeSequential(0)` yields a
zeroed object, every sequence of `add`s leaves it unchanged without any
out-of-bounds access (the `add` loop's guard doubles as its bounds check),
and misuse surfaces only on use — every `sum` on the `N = 0` tree reads past
the end of `bits` on its first iteration (undefined behaviour), never a
synchronous constructor error. -/
theorem c9_constructors_do_not_validate (U : List (Nat × Int)) (q : Nat) :
    (FenwickTreeSequential.new 0).2 = (fun _ => (0 : Int))
    ∧ Fenwick.foldAdd 0 (FenwickTreeSequential.new 0).2 U = (FenwickTreeSequential.new 0).2
    ∧ sumChecked 1 (Fenwick.foldAdd 0 (FenwickTreeSequential.new 0).2 U) q = none := by
  refine ⟨rfl, foldAdd_zero_size U _, ?_⟩
  exact sumChecked_oob 1 _ q (by omega)

/-- The jump computation shared by the three pipeline `batchAdd`s
(src/fenwick.h:180-190, 316-326, 470-480).  In the source (for `x < lower`):
`highest_diff_bit = 0x8000000000000000ULL >> __builtin_clzll(x ^ lower)`,
which is `2 ^ log2 (x ^^^ lower)`; then `x |= highest_diff_bit` and
`x &= ~(highest_diff_bit - 1)`, where the 64-bit unsigned complement mask
`~(M - 1)` is `2 ^ 64 - M`; finally, if the result is still below `lower`,
`x += x & -x`.  For `x ≥ lower` the code leaves `x` unchanged. -/
def jump (x lo : Nat) : Nat :=
  if x < lo then
    let M := 2 ^ Nat.log2 (x ^^^ lo)
    let y := (x ||| M) &&& (2 ^ 64 - M)
    if y < lo then y + lowbit y else y
  else x

/-- Bits of the 64-bit mask `~(2 ^ h - 1)`. -/
theorem testBit_mask64 (h i : Nat) (hh : h ≤ 64) :
    (2 ^ 64 - 2 ^ h).testBit i = (decide (h ≤ i) && decide (i < 64)) := by
  have hsplit : 2 ^ 64 - 2 ^ h = (2 ^ (64 - h) - 1) <<< h := by
    rw [Nat.shiftLeft_eq, Nat.sub_mul, one_mul, ← pow_add]
    congr 2
    omega
  rw [hsplit, Nat.testBit_shiftLeft, Nat.testBit_two_pow_sub_one]
  by_cases h1 : h ≤ i
  · have hdec : decide (h ≤ i) = true := by simp [h1]
    simp only [ge_iff_le, hdec, Bool.true_and]
    exact decide_eq_decide.mpr (by omega)
  · simp [h1]

/-- Above the highest differing bit, `x` and `lo` agree bitwise. -/
theorem testBit_high_eq {x lo h : Nat} (hd : x ^^^ lo < 2 ^ (h + 1)) :
    ∀ i, h < i → x.testBit i = lo.testBit i := by
  intro i hi
  have hlt : x ^^^ lo < 2 ^ i :=
    lt_of_lt_of_le hd (Nat.pow_le_pow_right (by norm_num) (by omega))
  have hfalse : (x ^^^ lo).testBit i = false := Nat.testBit_lt_two_pow hlt
  rw [Nat.testBit_xor] at hfalse
  cases hxb : x.testBit i <;> cases hlob : lo.testBit i <;> simp_all

/-- The top bit of a nonzero number, located by `log2`, is set. -/
theorem testBit_log2 {d : Nat} (hd0 : d ≠ 0) : d.testBit d.log2 = true := by
  have h1 : 2 ^ d.log2 ≤ d := Nat.log2_self_le hd0
  have h2 : d < 2 ^ (d.log2 + 1) := Nat.lt_log2_self
  rw [Nat.testBit_to_div_mod]
  have hge : 1 ≤ d / 2 ^ d.log2 :=
    (Nat.one_le_div_iff (Nat.pos_pow_of_pos _ (by norm_num))).mpr h1
  have hlt : d / 2 ^ d.log2 < 2 := by
    rw [Nat.div_lt_iff_lt_mul (Nat.pos_pow_of_pos _ (by norm_num))]
    rw [pow_succ] at h2
    omega
  have : d / 2 ^ d.log2 = 1 := by omega
  simp [this]

/-- Numbers agreeing bitwise from bit `k` up have the same quotient by `2^k`. -/
theorem div_pow_eq_of_testBit (x lo k : Nat)
    (hbits : ∀ i, k ≤ i → x.testBit i = lo.testBit i) : x / 2 ^ k = lo / 2 ^ k := by
  apply Nat.eq_of_testBit_eq
  intro j
  rw [← Nat.shiftRight_eq_div_pow, ← Nat.shiftRight_eq_div_pow,
    Nat.testBit_shiftRight, Nat.testBit_shiftRight]
  exact hbits (k + j) (by omega)

/-- If `x` and `lo` agree above bit `h`, `x` has bit `h` set and `lo` does
not, then `lo < x`. -/
theorem lt_of_bit_h {x lo h : Nat} (hhigh : x / 2 ^ (h + 1) = lo / 2 ^ (h + 1))
    (hx : x.testBit h = true) (hlo : lo.testBit h = false) : lo < x := by
  have hx' : x / 2 ^ h % 2 = 1 := by simpa [Nat.testBit_to_div_mod] using hx
  have hlo' : lo / 2 ^ h % 2 = 0 := by
    have := hlo
    simp [Nat.testBit_to_div_mod] at this
    omega
  have e1 : x / 2 ^ h / 2 = x / 2 ^ (h + 1) := by
    rw [Nat.div_div_eq_div_mul, pow_succ]
  have e2 : lo / 2 ^ h / 2 = lo / 2 ^ (h + 1) := by
    rw [Nat.div_div_eq_div_mul, pow_succ]
  have hq : x / 2 ^ h = lo / 2 ^ h + 1 := by omega
  have e3 := Nat.div_add_mod x (2 ^ h)
  have e4 := Nat.div_add_mod lo (2 ^ h)
  have e5 : lo % 2 ^ h < 2 ^ h := Nat.mod_lt _ (Nat.pos_pow_of_pos _ (by norm_num))
  have e6 : 2 ^ h * (x / 2 ^ h) = 2 ^ h * (lo / 2 ^ h) + 2 ^ h := by
    rw [hq]
    ring
  omega

/-- For `x < lo`, `x` has the highest differing bit clear and `lo` has it
set, and they agree above it. -/
theorem bits_at_top {x lo : Nat} (hxlo : x < lo) :
    x.testBit (Nat.log2 (x ^^^ lo)) = false
    ∧ lo.testBit (Nat.log2 (x ^^^ lo)) = true
    ∧ x / 2 ^ (Nat.log2 (x ^^^ lo) + 1) = lo / 2 ^ (Nat.log2 (x ^^^ lo) + 1) := by
  have hne : x ≠ lo := by omega
  have hd0 : x ^^^ lo ≠ 0 := fun h => hne (Nat.xor_eq_zero.mp h)
  have hdtop := testBit_log2 hd0
  rw [Nat.testBit_xor] at hdtop
  have hdlt : x ^^^ lo < 2 ^ (Nat.log2 (x ^^^ lo) + 1) := Nat.lt_log2_self
  have hhigh : x / 2 ^ (Nat.log2 (x ^^^ lo) + 1) = lo / 2 ^ (Nat.log2 (x ^^^ lo) + 1) :=
    div_pow_eq_of_testBit x lo _ (fun i hi => testBit_high_eq hdlt i (by omega))
  cases hxb : x.testBit (Nat.log2 (x ^^^ lo)) <;>
    cases hlob : lo.testBit (Nat.log2 (x ^^^ lo))
  · rw [hxb, hlob] at hdtop
    simp at hdtop
  · exact ⟨rfl, rfl, hhigh⟩
  · exact absurd (lt_of_bit_h hhigh hxb hlob) (by omega)
  · rw [hxb, hlob] at hdtop
    simp at hdtop

/-- `x |= M; x &= ~(M-1)` for the highest differing bit `M` keeps the common
high bits (which are `lo`'s), sets bit `h` (which `lo` has set) and clears
everything below: the result is `lo` with its low `h` bits cleared. -/
theorem jump_mask_eq {x lo : Nat} (hxlo : x < lo) (hlo : lo < 2 ^ 63) :
    (x ||| 2 ^ Nat.log2 (x ^^^ lo)) &&& (2 ^ 64 - 2 ^ Nat.log2 (x ^^^ lo))
      = 2 ^ Nat.log2 (x ^^^ lo) * (lo / 2 ^ Nat.log2 (x ^^^ lo)) := by
  obtain ⟨hxbit, hlobit, _⟩ := bits_at_top hxlo
  have hne : x ≠ lo := by omega
  have hd0 : x ^^^ lo ≠ 0 := fun h => hne (Nat.xor_eq_zero.mp h)
  have hxb : x < 2 ^ 63 := by omega
  have hdlt63 : x ^^^ lo < 2 ^ 63 := Nat.xor_lt_two_pow hxb hlo
  have hh63 : Nat.log2 (x ^^^ lo) < 63 := (Nat.log2_lt hd0).mpr hdlt63
  have hdlt : x ^^^ lo < 2 ^ (Nat.log2 (x ^^^ lo) + 1) := Nat.lt_log2_self
  set h := Nat.log2 (x ^^^ lo) with hhdef
  apply Nat.eq_of_testBit_eq
  intro i
  have hrhs : 2 ^ h * (lo / 2 ^ h) = (lo >>> h) <<< h := by
    rw [Nat.shiftRight_eq_div_pow, Nat.shiftLeft_eq]
    ring
  rw [Nat.testBit_land, Nat.testBit_lor, testBit_mask64 h i (by omega),
    Nat.testBit_two_pow, hrhs, Nat.testBit_shiftLeft, Nat.testBit_shiftRight]
  rcases lt_trichotomy i h with hih | hih | hih
  · have d1 : decide (h ≤ i) = false := by simp; omega
    rw [d1]
    simp
  · have d1 : decide (h ≤ i) = true := by simp [hih]
    have d2 : decide (h = i) = true := by simp [hih]
    have d3 : decide (i < 64) = true := by simp; omega
    rw [d1, d2, d3]
    have hadd : h + (i - h) = i := by omega
    rw [hadd]
    have hlobit' : lo.testBit i = true := by rw [hih]; exact hlobit
    simp [hlobit']
  · have d1 : decide (h ≤ i) = true := by simp; omega
    have d2 : decide (h = i) = false := by simp; omega
    rw [d1, d2]
    have hadd : h + (i - h) = i := by omega
    rw [hadd]
    by_cases hi64 : i < 64
    · have d3 : decide (i < 64) = true := by simp [hi64]
      rw [d3]
      have heq := testBit_high_eq hdlt i hih
      simp [heq]
    · have d3 : decide (i < 64) = false := by simp [hi64]
      rw [d3]
      have hfa : lo.testBit i = false := Nat.testBit_lt_two_pow
        (lt_of_lt_of_le hlo (Nat.pow_le_pow_right (by norm_num) (by omega)))
      simp [hfa]

theorem jump_unfold (x lo : Nat) (hxlo : x < lo) :
    jump x lo
      = (if ((x ||| 2 ^ Nat.log2 (x ^^^ lo)) &&& (2 ^ 64 - 2 ^ Nat.log2 (x ^^^ lo))) < lo
        then ((x ||| 2 ^ Nat.log2 (x ^^^ lo)) &&& (2 ^ 64 - 2 ^ Nat.log2 (x ^^^ lo)))
          + lowbit ((x ||| 2 ^ Nat.log2 (x ^^^ lo)) &&& (2 ^ 64 - 2 ^ Nat.log2 (x ^^^ lo)))
        else ((x ||| 2 ^ Nat.log2 (x ^^^ lo)) &&& (2 ^ 64 - 2 ^ Nat.log2 (x ^^^ lo)))) := by
  unfold jump
  rw [if_pos hxlo]

/-- Full specification of the jump for `x < lo`: the result is always `≥ lo`
(so deposits stay inside the worker's stripe), and when `x` is not a multiple
of `2 ^ (h + 1)` (for `h` the highest differing bit) the result is exactly
the least element of the update walk of `x` that is `≥ lo`. -/
theorem jump_lt_spec {x lo : Nat} (hx : 0 < x) (hxlo : x < lo) (hlo : lo < 2 ^ 63) :
    lo ≤ jump x lo
    ∧ (x % 2 ^ (Nat.log2 (x ^^^ lo) + 1) ≠ 0 →
        onWalk x (jump x lo) ∧ ∀ k, onWalk x k → lo ≤ k → jump x lo ≤ k) := by
  obtain ⟨hxbit, hlobit, hhigh⟩ := bits_at_top hxlo
  set h := Nat.log2 (x ^^^ lo) with hhdef
  have hju : jump x lo = (if 2 ^ h * (lo / 2 ^ h) < lo
      then 2 ^ h * (lo / 2 ^ h) + lowbit (2 ^ h * (lo / 2 ^ h))
      else 2 ^ h * (lo / 2 ^ h)) := by
    rw [jump_unfold x lo hxlo, jump_mask_eq hxlo hlo]
  -- arithmetic facts
  have hP : 0 < 2 ^ h := Nat.pos_pow_of_pos _ (by norm_num)
  have hPP : (2 : Nat) ^ (h + 1) = 2 * 2 ^ h := by rw [pow_succ]; ring
  have hqlo1 : lo / 2 ^ h % 2 = 1 := by simpa [Nat.testBit_to_div_mod] using hlobit
  have hqx0 : x / 2 ^ h % 2 = 0 := by
    have := hxbit
    simp [Nat.testBit_to_div_mod] at this
    omega
  have e1 : lo / 2 ^ h / 2 = lo / 2 ^ (h + 1) := by
    rw [Nat.div_div_eq_div_mul, pow_succ]
  have e2 : x / 2 ^ h / 2 = x / 2 ^ (h + 1) := by
    rw [Nat.div_div_eq_div_mul, pow_succ]
  have hqlo : lo / 2 ^ h = 2 * (lo / 2 ^ (h + 1)) + 1 := by omega
  have hqx : x / 2 ^ h = 2 * (x / 2 ^ (h + 1)) := by omega
  have dax := Nat.div_add_mod x (2 ^ h)
  have dax2 := Nat.div_add_mod x (2 ^ (h + 1))
  have dal := Nat.div_add_mod lo (2 ^ h)
  have dal2 := Nat.div_add_mod lo (2 ^ (h + 1))
  have hmx : x % 2 ^ h < 2 ^ h := Nat.mod_lt _ hP
  have hmlo : lo % 2 ^ h < 2 ^ h := Nat.mod_lt _ hP
  have hml2 : lo % 2 ^ (h + 1) < 2 ^ (h + 1) :=
    Nat.mod_lt _ (Nat.pos_pow_of_pos _ (by norm_num))
  have ekey : 2 ^ h * (x / 2 ^ h) = 2 ^ (h + 1) * (x / 2 ^ (h + 1)) := by
    rw [hqx, pow_succ]
    ring
  have hax : x % 2 ^ (h + 1) = x % 2 ^ h := by omega
  have ha : x % 2 ^ (h + 1) < 2 ^ h := by omega
  have hy3 : 2 ^ h * (lo / 2 ^ h) = 2 ^ (h + 1) * (lo / 2 ^ (h + 1)) + 2 ^ h := by
    rw [hqlo, pow_succ]
    ring
  have hxdecomp : x = 2 ^ (h + 1) * (lo / 2 ^ (h + 1)) + x % 2 ^ (h + 1) := by
    rw [← hhigh]
    omega
  have hxy : x < 2 ^ h * (lo / 2 ^ h) := by omega
  have hylo : 2 ^ h * (lo / 2 ^ h) ≤ lo := by omega
  have hylb : lowbit (2 ^ h * (lo / 2 ^ h)) = 2 ^ h := by
    rw [hqlo]
    exact lowbit_two_pow_mul h _ (by omega)
  by_cases hc : 2 ^ h * (lo / 2 ^ h) < lo
  · -- still below lo: one extra walk step
    rw [if_pos hc] at hju
    rw [hylb] at hju
    have hjv : jump x lo = 2 ^ (h + 1) * (lo / 2 ^ (h + 1)) + 2 ^ (h + 1) := by omega
    have hlolt : lo < jump x lo := by omega
    refine ⟨by omega, ?_⟩
    intro ha0
    have ha0' : 0 < x % 2 ^ (h + 1) := by omega
    have hdvd : 2 ^ (h + 1) ∣ jump x lo :=
      ⟨lo / 2 ^ (h + 1) + 1, by rw [hjv]; ring⟩
    have hj0 : 0 < jump x lo := by omega
    have hlbj : 2 ^ (h + 1) ≤ lowbit (jump x lo) :=
      Nat.le_of_dvd (lowbit_pos hj0) (pow_dvd_lowbit hdvd hj0)
    constructor
    · rw [onWalk_iff hx]
      constructor
      · omega
      · omega
    · intro k hk hlok
      by_contra hcon
      push_neg at hcon
      rw [onWalk_iff hx] at hk
      have hky : 0 < k - 2 ^ h * (lo / 2 ^ h) := by omega
      have hkr : k - 2 ^ h * (lo / 2 ^ h) < 2 ^ h := by omega
      have hlbk : lowbit k = lowbit (k - 2 ^ h * (lo / 2 ^ h)) := by
        have hdy : 2 ^ h ∣ 2 ^ h * (lo / 2 ^ h) := Dvd.intro _ rfl
        have := lowbit_add_eq (2 ^ h * (lo / 2 ^ h)) (k - 2 ^ h * (lo / 2 ^ h)) hdy hky hkr
        rw [show 2 ^ h * (lo / 2 ^ h) + (k - 2 ^ h * (lo / 2 ^ h)) = k by omega] at this
        exact this
      have hlbk2 : lowbit (k - 2 ^ h * (lo / 2 ^ h)) ≤ k - 2 ^ h * (lo / 2 ^ h) :=
        lowbit_le (by omega)
      omega
  · -- landed exactly on lo
    rw [if_neg hc] at hju
    have hjlo : jump x lo = lo := by omega
    refine ⟨by omega, ?_⟩
    intro ha0
    have ha0' : 0 < x % 2 ^ (h + 1) := by omega
    constructor
    · rw [onWalk_iff hx, hjlo]
      have hjy : lo = 2 ^ h * (lo / 2 ^ h) := by omega
      constructor
      · omega
      · rw [hjy, hylb]
        omega
    · intro k _ hlok
      omega

theorem log2_eq_of {d a : Nat} (h1 : 2 ^ a ≤ d) (h2 : d < 2 ^ (a + 1)) :
    Nat.log2 d = a := by
  have hp : 0 < 2 ^ a := Nat.pos_pow_of_pos _ (by norm_num)
  have hd0 : d ≠ 0 := by omega
  have l1 : Nat.log2 d < a + 1 := (Nat.log2_lt hd0).mpr h2
  have l2 : ¬ Nat.log2 d < a := fun hc => absurd ((Nat.log2_lt hd0).mp hc) (by omega)
  omega

theorem jump_of_le (x lo : Nat) (h : lo ≤ x) : jump x lo = x := by
  unfold jump
  rw [if_neg (by omega)]

theorem jump_two_three : jump 2 3 = 3 := by
  rw [jump_unfold 2 3 (by norm_num)]
  have e1 : (2 : Nat) ^^^ 3 = 1 := by decide
  rw [e1]
  have e2 : Nat.log2 1 = 0 := log2_eq_of (by norm_num) (by norm_num)
  rw [e2]
  have e3 : ((2 : Nat) ||| 2 ^ 0) &&& (2 ^ 64 - 2 ^ 0) = 3 := by decide
  rw [e3]
  rw [if_neg (by omega)]

theorem jump_three_six : jump 3 6 = 8 := by
  rw [jump_unfold 3 6 (by norm_num)]
  have e1 : (3 : Nat) ^^^ 6 = 5 := by decide
  rw [e1]
  have e2 : Nat.log2 5 = 2 := log2_eq_of (by norm_num) (by norm_num)
  rw [e2]
  have e3 : ((3 : Nat) ||| 2 ^ 2) &&& (2 ^ 64 - 2 ^ 2) = 4 := by decide
  rw [e3]
  rw [if_pos (by norm_num)]
  have e4 : lowbit 4 = 4 := by decide
  rw [e4]

/-- C5 counterexample: for `lo = 3` and `x = 2` (i.e. a worker whose stripe
starts at tree index 3 and an update at logical index 1) the jump computation
returns `3`, but `3` is not on the update walk `2, 4, 8, …` of `x = 2` at
all — the smallest walk element `≥ 3` is `4`.  So the computed index is not
"the smallest element of the update walk that is ≥ lo" as claimed. -/
theorem c5_counterexample :
    jump 2 3 = 3 ∧ ¬ onWalk 2 3 ∧ onWalk 2 4 := by
  refine ⟨jump_two_three, ?_, ?_⟩
  · intro hcon
    rw [onWalk_iff (by norm_num)] at hcon
    have e : lowbit 3 = 1 := by decide
    omega
  · rw [onWalk_iff (by norm_num)]
    have e : lowbit 4 = 4 := by decide
    omega

/-- C5 (amended): For every range lower bound `lo` (with `1 ≤ lo < 2^63`,
the `int` domain) and every start index `x` with `1 ≤ x < lo` **whose low
bits below and at the highest differing bit position `h` are not all zero**
(`x % 2^(h+1) ≠ 0` — the counterexample `x = 2, lo = 3` shows the computation
is wrong without this restriction), the jump computation (let `h` be the
highest bit where `x` and `lo` differ; set `x` to `(x | 2^h) & ~(2^h - 1)`;
if the result is still `< lo`, advance once by `x += x & -x`) yields exactly
the smallest element of the update walk `x, x + lowbit x, …` that is
`≥ lo`. -/
theorem c5_jump_least_walk_element (x lo : Nat) (hx : 1 ≤ x) (hxlo : x < lo)
    (hlo : lo < 2 ^ 63) (hmod : x % 2 ^ (Nat.log2 (x ^^^ lo) + 1) ≠ 0) :
    onWalk x (jump x lo) ∧ lo ≤ jump x lo
    ∧ ∀ k, onWalk x k → lo ≤ k → jump x lo ≤ k := by
  obtain ⟨h1, h2⟩ := jump_lt_spec hx hxlo hlo
  obtain ⟨h3, h4⟩ := h2 hmod
  exact ⟨h3, h1, h4⟩

theorem c5_witness :
    ((3 : Nat) % 2 ^ (Nat.log2 (3 ^^^ 6) + 1) ≠ 0 ∧ jump 3 6 = 8)
    ∧ (onWalk 3 (jump 3 6) ∧ 6 ≤ jump 3 6 ∧ ∀ k, onWalk 3 k → 6 ≤ k → jump 3 6 ≤ k) := by
  have hmod : (3 : Nat) % 2 ^ (Nat.log2 (3 ^^^ 6) + 1) ≠ 0 := by
    have e1 : (3 : Nat) ^^^ 6 = 5 := by decide
    have e2 : Nat.log2 5 = 2 := log2_eq_of (by norm_num) (by norm_num)
    rw [e1, e2]
    decide
  exact ⟨⟨hmod, jump_three_six⟩,
    c5_jump_least_walk_element 3 6 (by norm_num) (by norm_num) (by norm_num) hmod⟩

/-- The dynamic-programming pass of `initialize_ranges`
(src/fenwick.h:102-114 and identically 235-247): for `x = 1..n`, `++dp[x]`,
`total += dp[x]`, and propagation `dp[x + lowbit x] += dp[x]` when the next
index is still `≤ n`.  `total` is a C++ `double`; every value it holds is an
integer, embedded exactly as a rational. -/
def dpStep (n : Nat) (s : (Nat → Int) × ℚ) (x : Nat) : (Nat → Int) × ℚ :=
  let dp1 : Nat → Int := fun j => if j = x then s.1 j + 1 else s.1 j
  let total1 : ℚ := s.2 + (dp1 x : Int)
  if x + lowbit x ≤ n then
    (fun j => if j = x + lowbit x then dp1 j + dp1 x else dp1 j, total1)
  else (dp1, total1)

def dpPass (n : Nat) : (Nat → Int) × ℚ :=
  (List.range' 1 n).foldl (dpStep n) (fun _ => 0, 0)

/-- The dynamic-programming pass of
`FenwickTreePipelineAggregate::initialize_ranges` (src/fenwick.h:394-403):
identical except that the propagation line `dp[next_x] += dp[x]` is absent
(the computed `next_x` is never used), so every `dp[x]` stays `1`. -/
def dpStepAggregate (s : (Nat → Int) × ℚ) (x : Nat) : (Nat → Int) × ℚ :=
  let dp1 : Nat → Int := fun j => if j = x then s.1 j + 1 else s.1 j
  (dp1, s.2 + (dp1 x : Int))

def dpPassAggregate (n : Nat) : (Nat → Int) × ℚ :=
  (List.range' 1 n).foldl dpStepAggregate (fun _ => 0, 0)

/-- The inner splitting loop (src/fenwick.h:123-126):
`while (cur < size && thread_total < average) { thread_total += dp[cur]; ++cur; }`,
structural in `fuel = size - cur` (so `fuel = 0` is exactly `cur ≥ size`). -/
def accLoop (avg : ℚ) (dp : Nat → Int) : Nat → Nat → ℚ → Nat × ℚ
  | cur, 0, tt => (cur, tt)
  | cur, fuel + 1, tt =>
      if tt < avg then accLoop avg dp (cur + 1) fuel (tt + (dp cur : Int)) else (cur, tt)

/-- C's `labs` applied to a `double` argument (src/fenwick.h:128): the
argument is first converted to `long`, truncating toward zero, then the
absolute value is taken. -/
def qtrunc (q : ℚ) : Int := if q < 0 then -Int.floor (-q) else Int.floor q

def labs (q : ℚ) : Int := |qtrunc q|

/-- One iteration of the splitting loop body (src/fenwick.h:120-134):
accumulate until the average is reached, then drop the last index again if
that lands (in truncated `labs` distance) closer to the average.  Returns the
produced range and the next worker's start. -/
def chooseCut (size : Nat) (avg : ℚ) (dp : Nat → Int) (first : Nat) : (Nat × Nat) × Nat :=
  let r := accLoop avg dp first (size - first) 0
  if first < r.1 ∧ labs (r.2 - avg) > labs (r.2 - (dp (r.1 - 1) : Int) - avg)
  then ((first, r.1 - 1), r.1 - 1)
  else ((first, r.1), r.1)

def buildRanges (size : Nat) (avg : ℚ) (dp : Nat → Int) : Nat → Nat → List (Nat × Nat)
  | _, 0 => []
  | cur, w + 1 => (chooseCut size avg dp cur).1
      :: buildRanges size avg dp (chooseCut size avg dp cur).2 w

/-- `ranges.back().second = bits.size()` (src/fenwick.h:136). -/
def setLast (size : Nat) : List (Nat × Nat) → List (Nat × Nat)
  | [] => []
  | [r] => [(r.1, size)]
  | r :: rest => r :: setLast size rest

/-- `initialize_ranges(n, num_threads)` of `FenwickTreePipeline` and
`FenwickTreePipelineSemiStatic` (src/fenwick.h:102-137 and 235-270,
byte-identical): dp pass, greedy split at `average = total / num_threads`,
last range extended to `bits.size() = n + 1`. -/
def initialize_ranges (n W : Nat) : List (Nat × Nat) :=
  setLast (n + 1) (buildRanges (n + 1) ((dpPass n).2 / (W : ℚ)) (dpPass n).1 1 W)

/-- `FenwickTreePipelineAggregate::initialize_ranges` (src/fenwick.h:394-426):
same splitting code over the propagation-free dp. -/
def initialize_rangesAggregate (n W : Nat) : List (Nat × Nat) :=
  setLast (n + 1)
    (buildRanges (n + 1) ((dpPassAggregate n).2 / (W : ℚ)) (dpPassAggregate n).1 1 W)

/-- The per-operation walk of `FenwickTreePipeline::batchAdd`
(src/fenwick.h:193-195): `for (; x < upper; x += x & -x) bits[x] += val`.
Structural in a fuel argument; called with `fuel = upper`, which is enough
because `x ≥ 1` throughout and `x` grows by `lowbit x ≥ 1` each iteration. -/
def pipeWalk (upper : Nat) (val : Int) : Nat → Nat → (Nat → Int) → Nat → Int
  | 0, _, bits => bits
  | fuel + 1, x, bits =>
      if x < upper then
        pipeWalk upper val fuel (x + lowbit x) (fun j => if j = x then bits j + val else bits j)
      else bits

/-- One worker of `FenwickTreePipeline::batchAdd` (src/fenwick.h:162-198)
holding the stripe `[lower, upper)`: for every operation of the batch,
`x = operation.index + 1`, the jump of src/fenwick.h:180-190 when
`x < lower`, then the walk bounded by `upper`. -/
def pipeThread (lower upper : Nat) (bits : Nat → Int) (ops : List Operation) : Nat → Int :=
  ops.foldl (fun b op => pipeWalk upper op.value upper (jump (op.index + 1) lower) b) bits

/-- `FenwickTreePipeline::batchAdd` over all workers, sequentialised:
worker `t` only writes cells of its stripe `[lower_t, upper_t)` (the walk is
bounded by `upper_t` above and the jump result never falls below `lower_t`),
and the stripes produced by `initialize_ranges` are pairwise disjoint, so the
parallel interleaving is immaterial.  `FenwickTreePipelineSemiStatic::batchAdd`
(src/fenwick.h:296-359) performs the same writes (its rebalance block touches
only `ranges`, not `bits`). -/
def pipelineBatchAdd (ranges : List (Nat × Nat)) (ops : List Operation) (bits : Nat → Int) : Nat → Int :=
  ranges.foldl (fun b r => pipeThread r.1 r.2 b ops) bits

theorem initialize_ranges_three_two : initialize_ranges 3 2 = [(1, 3), (3, 4)] := by
  norm_num [initialize_ranges, dpPass, dpStep, buildRanges, chooseCut, accLoop, setLast,
    labs, qtrunc, lowbit, lowbitAux, List.range']

/-- **C2**: Refuted.  With `N = 3`, `W = 2` the pipeline partitioner produces
the stripes `[1, 3)` and `[3, 4)`.  On the single-update batch
`{add(index 1, value 1)}`, worker 1 finds `x = 2 < 3 = lower`, and the jump
computation lands on `3`, which is not on the update walk `2, 4, 8, ...` of
`x = 2`; the worker therefore spuriously increments `bits[3]`.  A subsequent
full-range `sum(N - 1) = sum(2)` returns `2`, while the sum of all update
values in the batch — the sequential executor's answer — is `1`. -/
theorem c2_pipeline_batchAdd_diverges_from_sequential :
    initialize_ranges 3 2 = [(1, 3), (3, 4)] ∧
    Fenwick.sum
      (pipelineBatchAdd [(1, 3), (3, 4)] [Operation.mk 'a' 1 1] (fun _ => 0)) 2 = 2 ∧
    Fenwick.sum (Fenwick.foldAdd 3 (fun _ => 0) [(1, 1)]) 2 = 1 := by
  refine ⟨initialize_ranges_three_two, ?_, ?_⟩
  · have h21 : jump 2 1 = 2 := jump_of_le 2 1 (by norm_num)
    norm_num [pipelineBatchAdd, pipeThread, h21, jump_two_three, pipeWalk,
      Fenwick.sum, Fenwick.sumLoop, Fenwick.sumLoopAux, lowbit, lowbitAux]
  · rw [Fenwick.sum_foldAdd 3 _ 2 (by norm_num)]
    norm_num

theorem onWalk_zero {k : Nat} : onWalk 0 k ↔ k = 0 := by
  constructor
  · rintro ⟨t, rfl⟩
    induction t with
    | zero => rfl
    | succ t ih =>
        rw [Function.iterate_succ_apply', ih]
        show 0 + lowbit 0 = 0
        rw [lowbit_zero]
  · rintro rfl
    exact onWalk_self 0

instance (x k : Nat) : Decidable (onWalk x k) :=
  decidable_of_iff (if 0 < x then x ≤ k ∧ k - lowbit k < x else k = 0) (by
    by_cases hx : 0 < x
    · rw [if_pos hx, ← onWalk_iff hx]
    · rw [if_neg hx]
      have h0 : x = 0 := by omega
      subst h0
      exact onWalk_zero.symm)

/-- The number of start positions in `[1, n]` whose update walk visits `k`
is exactly `lowbit k` (for `1 ≤ k ≤ n`): the visitors are precisely the
interval `(k - lowbit k, k]`. -/
theorem visitors_card (n k : Nat) (hk1 : 1 ≤ k) (hkn : k ≤ n) :
    ((Finset.Icc 1 n).filter (fun j => onWalk j k)).card = lowbit k := by
  have hset : (Finset.Icc 1 n).filter (fun j => onWalk j k)
      = Finset.Ioc (k - lowbit k) k := by
    ext j
    simp only [Finset.mem_filter, Finset.mem_Icc, Finset.mem_Ioc]
    constructor
    · rintro ⟨⟨hj1, _⟩, hw⟩
      exact ⟨((onWalk_iff (by omega)).mp hw).2, ((onWalk_iff (by omega)).mp hw).1⟩
    · rintro ⟨h1, h2⟩
      refine ⟨⟨by omega, by omega⟩, (onWalk_iff (by omega)).mpr ⟨h2, h1⟩⟩
  rw [hset, Nat.card_Ioc]
  have := lowbit_le (show 0 < k by omega)
  omega

/-- `∑ i < a, 2 ^ i = 2 ^ a - 1` over the integers. -/
theorem two_pow_sum (a : Nat) : ∑ i ∈ Finset.range a, (2 : Int) ^ i = 2 ^ a - 1 := by
  induction a with
  | zero => simp
  | succ a ih => rw [Finset.sum_range_succ, ih]; ring

/-- For `k = 2 ^ a * m` with `m` odd and `i < a`, the lowest set bit of
`k - 2 ^ i` is `2 ^ i`. -/
theorem lowbit_sub_pow (k a m i : Nat) (hm : m % 2 = 1) (hk : k = 2 ^ a * m)
    (hi : i < a) : lowbit (k - 2 ^ i) = 2 ^ i := by
  have hfac : k - 2 ^ i = 2 ^ i * (2 ^ (a - i) * m - 1) := by
    rw [hk, Nat.mul_sub, Nat.mul_one, ← Nat.mul_assoc, ← pow_add]
    congr 3
    omega
  have heven : 2 ∣ 2 ^ (a - i) * m := Dvd.dvd.mul_right (dvd_pow_self 2 (by omega)) m
  have hm0 : 0 < m := by omega
  have hpos : 0 < 2 ^ (a - i) * m := by positivity
  have hodd : (2 ^ (a - i) * m - 1) % 2 = 1 := by omega
  rw [hfac]
  exact lowbit_two_pow_mul i _ hodd

/-- The children of `k = 2 ^ a * m` (`m` odd) under the update-walk step:
for `j > 0`, `j + lowbit j = k` exactly when `j = k - 2 ^ i` for some
`i < a`. -/
theorem stepUp_eq_iff (k a m : Nat) (hm : m % 2 = 1) (hk : k = 2 ^ a * m)
    (j : Nat) (hj : 0 < j) :
    j + lowbit j = k ↔ ∃ i, i < a ∧ j = k - 2 ^ i := by
  have hlbk : lowbit k = 2 ^ a := by rw [hk]; exact lowbit_two_pow_mul a m hm
  constructor
  · intro hstep
    obtain ⟨b, d, hd, hjeq⟩ := exists_two_pow_mul j (by omega)
    have hlbj : lowbit j = 2 ^ b := by rw [hjeq]; exact lowbit_two_pow_mul b d hd
    have hke : k = 2 ^ b * (d + 1) := by
      rw [← hstep, hlbj, hjeq]; ring
    have hdvd : 2 ^ (b + 1) ∣ k := by
      obtain ⟨e, he⟩ : ∃ e, d + 1 = 2 * e := ⟨(d + 1) / 2, by omega⟩
      refine ⟨e, ?_⟩
      rw [hke, he]; ring
    have hkpos : 0 < k := by
      have hm0 : 0 < m := by omega
      rw [hk]; positivity
    have hdvlb : 2 ^ (b + 1) ∣ lowbit k := pow_dvd_lowbit hdvd hkpos
    have hble : 2 ^ (b + 1) ≤ 2 ^ a := by
      rw [hlbk] at hdvlb
      exact Nat.le_of_dvd (by positivity) hdvlb
    have hba : b + 1 ≤ a := (Nat.pow_le_pow_iff_right (by norm_num)).mp hble
    refine ⟨b, by omega, ?_⟩
    rw [← hstep, hlbj]
    omega
  · rintro ⟨i, hia, rfl⟩
    have hik : 2 ^ i < k := by
      have h1 : 2 ^ i < 2 ^ a := Nat.pow_lt_pow_right (by norm_num) hia
      have h2 : 2 ^ a ≤ k := by
        rw [hk]; exact Nat.le_mul_of_pos_right _ (by omega)
      omega
    rw [lowbit_sub_pow k a m i hm hk hia]
    omega

/-- Contribution already propagated into cell `k` after the first `M` steps of
the dp pass: the sum of the (final) dp values of the processed children. -/
def childSum (M k : Nat) : Int :=
  ∑ j ∈ Finset.Ioc 0 M, if j + lowbit j = k then (lowbit j : Int) else 0

theorem childSum_succ (M k : Nat) :
    childSum (M + 1) k
      = childSum M k + if M + 1 + lowbit (M + 1) = k then (lowbit (M + 1) : Int) else 0 :=
  Finset.sum_Ioc_succ_top (Nat.zero_le M) _

/-- The full children contribution to `k` is `lowbit k - 1`. -/
theorem childSum_eq (k a m M : Nat) (hm : m % 2 = 1) (hk : k = 2 ^ a * m)
    (hM : k ≤ M + 1) : childSum M k = (2 ^ a : Int) - 1 := by
  have hkpos : 0 < k := by
    have hm0 : 0 < m := by omega
    rw [hk]; positivity
  have hset : (Finset.Ioc 0 M).filter (fun j => j + lowbit j = k)
      = (Finset.range a).image (fun i => k - 2 ^ i) := by
    ext j
    simp only [Finset.mem_filter, Finset.mem_Ioc, Finset.mem_image, Finset.mem_range]
    constructor
    · rintro ⟨⟨hj0, _⟩, hstep⟩
      obtain ⟨i, hia, hje⟩ := (stepUp_eq_iff k a m hm hk j hj0).mp hstep
      exact ⟨i, hia, hje.symm⟩
    · rintro ⟨i, hia, rfl⟩
      have hik : 2 ^ i < k := by
        have h1 : 2 ^ i < 2 ^ a := Nat.pow_lt_pow_right (by norm_num) hia
        have h2 : 2 ^ a ≤ k := by
          rw [hk]; exact Nat.le_mul_of_pos_right _ (by omega)
        omega
      have hipos : 0 < 2 ^ i := by positivity
      have hj0 : 0 < k - 2 ^ i := by omega
      refine ⟨⟨hj0, by omega⟩, ?_⟩
      exact (stepUp_eq_iff k a m hm hk _ hj0).mpr ⟨i, hia, rfl⟩
  have hinj : ∀ x ∈ Finset.range a, ∀ y ∈ Finset.range a,
      k - 2 ^ x = k - 2 ^ y → x = y := by
    intro x hx y hy hxy
    simp only [Finset.mem_range] at hx hy
    have h1 : 2 ^ x < 2 ^ a := Nat.pow_lt_pow_right (by norm_num) hx
    have h2 : 2 ^ y < 2 ^ a := Nat.pow_lt_pow_right (by norm_num) hy
    have h3 : 2 ^ a ≤ k := by
      rw [hk]; exact Nat.le_mul_of_pos_right _ (by omega)
    have h4 : 2 ^ x = 2 ^ y := by omega
    exact Nat.pow_right_injective (by norm_num) h4
  rw [childSum, ← Finset.sum_filter, hset, Finset.sum_image hinj]
  have hcong : ∀ i ∈ Finset.range a, (lowbit (k - 2 ^ i) : Int) = 2 ^ i := by
    intro i hi
    simp only [Finset.mem_range] at hi
    rw [lowbit_sub_pow k a m i hm hk hi]
    push_cast
    ring
  rw [Finset.sum_congr rfl hcong]
  exact two_pow_sum a

theorem dpStep_fst (n : Nat) (s : (Nat → Int) × ℚ) (x k : Nat) :
    (dpStep n s x).1 k
      = if x + lowbit x ≤ n ∧ k = x + lowbit x
          then (if k = x then s.1 k + 1 else s.1 k) + (s.1 x + 1)
          else (if k = x then s.1 k + 1 else s.1 k) := by
  unfold dpStep
  by_cases h : x + lowbit x ≤ n
  · simp only [if_pos h]
    by_cases hk : k = x + lowbit x
    · simp [hk, h]
    · simp [hk, h]
  · have : ¬ (x + lowbit x ≤ n ∧ k = x + lowbit x) := fun hc => h hc.1
    simp [h, this]

theorem dpStep_snd (n : Nat) (s : (Nat → Int) × ℚ) (x : Nat) :
    (dpStep n s x).2 = s.2 + ((s.1 x + 1 : Int) : ℚ) := by
  unfold dpStep
  by_cases h : x + lowbit x ≤ n <;> simp [h]

/-- Invariant of the dp pass (src/fenwick.h:105-114) after its first `m`
steps: cell `k` holds its own increment (once processed) plus the
contributions propagated from its already-processed children, and the
running `total` is the sum of the final per-cell values of the processed
prefix. -/
theorem dpPass_invariant (n : Nat) : ∀ m, m ≤ n →
    ((List.range' 1 m).foldl (dpStep n) (fun _ => 0, 0)).1
      = (fun k => (if 1 ≤ k ∧ k ≤ m then (1 : Int) else 0)
          + if k ≤ n then childSum m k else 0)
    ∧ ((List.range' 1 m).foldl (dpStep n) (fun _ => 0, 0)).2
      = ∑ j ∈ Finset.Ioc 0 m, ((lowbit j : Int) : ℚ) := by
  intro m
  induction m with
  | zero =>
      intro _
      constructor
      · funext k
        rw [if_neg (by omega)]
        simp [childSum]
      · simp
  | succ m ih =>
      intro hm1
      obtain ⟨ih1, ih2⟩ := ih (by omega)
      have hconcat : List.range' 1 (m + 1) = List.range' 1 m ++ [m + 1] := by
        rw [List.range'_concat]
        congr 2
        omega
      rw [hconcat, List.foldl_append]
      simp only [List.foldl_cons, List.foldl_nil]
      set S := (List.range' 1 m).foldl (dpStep n) (fun _ => 0, 0) with hS
      have hx : S.1 (m + 1) = childSum m (m + 1) := by
        rw [ih1]
        show (if 1 ≤ m + 1 ∧ m + 1 ≤ m then (1 : Int) else 0)
            + (if m + 1 ≤ n then childSum m (m + 1) else 0) = _
        rw [if_neg (by omega), if_pos hm1]
        ring
      obtain ⟨a, c, hc, hkeq⟩ := exists_two_pow_mul (m + 1) (by omega)
      have hlb : lowbit (m + 1) = 2 ^ a := by rw [hkeq]; exact lowbit_two_pow_mul a c hc
      have hchild : childSum m (m + 1) = (2 ^ a : Int) - 1 :=
        childSum_eq (m + 1) a c m hc hkeq (by omega)
      have hdpx : S.1 (m + 1) + 1 = ((lowbit (m + 1) : Nat) : Int) := by
        rw [hx, hchild, hlb]
        push_cast
        ring
      have hlbpos : 0 < lowbit (m + 1) := lowbit_pos (by omega)
      constructor
      · funext k
        show (dpStep n S (m + 1)).1 k
            = (if 1 ≤ k ∧ k ≤ m + 1 then (1 : Int) else 0)
              + if k ≤ n then childSum (m + 1) k else 0
        rw [dpStep_fst, childSum_succ]
        by_cases hk2 : k = m + 1
        · subst hk2
          rw [if_neg (by omega), if_pos rfl, if_pos (by omega), if_pos hm1,
            if_neg (by omega)]
          rw [hdpx, hchild, hlb]
          push_cast
          ring
        · by_cases hk1 : k = m + 1 + lowbit (m + 1)
          · by_cases hprop : m + 1 + lowbit (m + 1) ≤ n
            · have hSk : S.1 k = childSum m k := by
                rw [ih1]
                show (if 1 ≤ k ∧ k ≤ m then (1 : Int) else 0)
                    + (if k ≤ n then childSum m k else 0) = _
                rw [if_neg (by omega), if_pos (by omega)]
                ring
              rw [if_pos ⟨hprop, hk1⟩, if_neg hk2, hSk, hdpx,
                if_neg (by omega), if_pos (by omega), if_pos (by omega)]
              ring
            · have hSk0 : S.1 k = 0 := by
                rw [ih1]
                show (if 1 ≤ k ∧ k ≤ m then (1 : Int) else 0)
                    + (if k ≤ n then childSum m k else 0) = 0
                rw [if_neg (by omega), if_neg (by omega)]
                ring
              rw [if_neg (fun hc => hprop hc.1), if_neg hk2, hSk0,
                if_neg (by omega), if_neg (by omega)]
              ring
          · have hSk : S.1 k = (if 1 ≤ k ∧ k ≤ m then (1 : Int) else 0)
                + (if k ≤ n then childSum m k else 0) := by
              rw [ih1]
            rw [if_neg (show ¬ (m + 1 + lowbit (m + 1) ≤ n ∧ k = m + 1 + lowbit (m + 1))
                from fun hc => hk1 hc.2), if_neg hk2, hSk]
            have hind : (if 1 ≤ k ∧ k ≤ m then (1 : Int) else 0)
                = (if 1 ≤ k ∧ k ≤ m + 1 then (1 : Int) else 0) := by
              by_cases hkm : 1 ≤ k ∧ k ≤ m
              · rw [if_pos hkm, if_pos (by omega)]
              · rw [if_neg hkm, if_neg (by omega)]
            rw [hind, if_neg (show ¬ (m + 1 + lowbit (m + 1) = k)
                from fun hc => hk1 hc.symm), add_zero]
      · show (dpStep n S (m + 1)).2 = _
        rw [dpStep_snd, ih2, Finset.sum_Ioc_succ_top (Nat.zero_le m), hdpx]

/-- After the full dp pass of `FenwickTreePipeline::initialize_ranges`,
`dp[k] = lowbit k` for every tree index `1 ≤ k ≤ n`. -/
theorem dpPass_fst (n k : Nat) (hk1 : 1 ≤ k) (hkn : k ≤ n) :
    (dpPass n).1 k = (lowbit k : Int) := by
  have h := (dpPass_invariant n n (le_refl n)).1
  unfold dpPass
  rw [h]
  show (if 1 ≤ k ∧ k ≤ n then (1 : Int) else 0) + (if k ≤ n then childSum n k else 0) = _
  obtain ⟨a, c, hc, hkeq⟩ := exists_two_pow_mul k (by omega)
  have hlb : lowbit k = 2 ^ a := by rw [hkeq]; exact lowbit_two_pow_mul a c hc
  rw [if_pos ⟨hk1, hkn⟩, if_pos hkn, childSum_eq k a c n hc hkeq (by omega), hlb]
  push_cast
  ring

/-- `total` after the dp pass is the sum of the final `dp` values. -/
theorem dpPass_snd (n : Nat) :
    (dpPass n).2 = ∑ j ∈ Finset.Ioc 0 n, ((lowbit j : Int) : ℚ) := by
  have h := (dpPass_invariant n n (le_refl n)).2
  unfold dpPass
  rw [h]

theorem dpStepAggregate_fst (s : (Nat → Int) × ℚ) (x k : Nat) :
    (dpStepAggregate s x).1 k = if k = x then s.1 k + 1 else s.1 k := rfl

theorem dpStepAggregate_snd (s : (Nat → Int) × ℚ) (x : Nat) :
    (dpStepAggregate s x).2 = s.2 + ((s.1 x + 1 : Int) : ℚ) := by
  unfold dpStepAggregate
  simp

/-- Invariant of the aggregate variant's dp pass: with the propagation line
absent, every processed cell holds exactly `1`. -/
theorem dpPassAggregate_invariant : ∀ m : Nat,
    ((List.range' 1 m).foldl dpStepAggregate (fun _ => 0, 0)).1
      = (fun k => if 1 ≤ k ∧ k ≤ m then (1 : Int) else 0)
    ∧ ((List.range' 1 m).foldl dpStepAggregate (fun _ => 0, 0)).2 = (m : ℚ) := by
  intro m
  induction m with
  | zero =>
      constructor
      · funext k
        rw [if_neg (by omega)]
        rfl
      · simp
  | succ m ih =>
      obtain ⟨ih1, ih2⟩ := ih
      have hconcat : List.range' 1 (m + 1) = List.range' 1 m ++ [m + 1] := by
        rw [List.range'_concat]
        congr 2
        omega
      rw [hconcat, List.foldl_append]
      simp only [List.foldl_cons, List.foldl_nil]
      set S := (List.range' 1 m).foldl dpStepAggregate (fun _ => 0, 0) with hS
      have hSx : S.1 (m + 1) = 0 := by
        rw [ih1]
        show (if 1 ≤ m + 1 ∧ m + 1 ≤ m then (1 : Int) else 0) = 0
        rw [if_neg (by omega)]
      constructor
      · funext k
        rw [dpStepAggregate_fst]
        by_cases hk : k = m + 1
        · subst hk
          rw [if_pos rfl, hSx]
          show (0 : Int) + 1 = if 1 ≤ m + 1 ∧ m + 1 ≤ m + 1 then (1 : Int) else 0
          rw [if_pos (by omega)]
          ring
        · rw [if_neg hk, ih1]
          show (if 1 ≤ k ∧ k ≤ m then (1 : Int) else 0) = _
          by_cases hkm : 1 ≤ k ∧ k ≤ m
          · rw [if_pos hkm, if_pos (by omega)]
          · rw [if_neg hkm, if_neg (by omega)]
      · rw [dpStepAggregate_snd, ih2, hSx]
        push_cast
        ring

/-- The aggregate variant's `dp[k]` is `1` at every processed cell. -/
theorem dpPassAggregate_fst (n k : Nat) (hk1 : 1 ≤ k) (hkn : k ≤ n) :
    (dpPassAggregate n).1 k = 1 := by
  have h := (dpPassAggregate_invariant n).1
  unfold dpPassAggregate
  rw [h]
  show (if 1 ≤ k ∧ k ≤ n then (1 : Int) else 0) = 1
  rw [if_pos ⟨hk1, hkn⟩]

/-- The assigned ranges, read in order, form a contiguous cover of
`[lo, hi)`: the first starts at `lo`, each range starts where the previous
ended, and the last ends at `hi`. -/
def contiguousCover : List (Nat × Nat) → Nat → Nat → Bool
  | [], lo, hi => lo == hi
  | [r], lo, hi => r.1 == lo && r.2 == hi
  | r :: r' :: rest, lo, hi => r.1 == lo && contiguousCover (r' :: rest) r.2 hi

theorem chooseCut_fst_fst (size : Nat) (avg : ℚ) (dp : Nat → Int) (first : Nat) :
    (chooseCut size avg dp first).1.1 = first := by
  simp only [chooseCut]
  split <;> rfl

theorem chooseCut_snd_eq (size : Nat) (avg : ℚ) (dp : Nat → Int) (first : Nat) :
    (chooseCut size avg dp first).2 = (chooseCut size avg dp first).1.2 := by
  simp only [chooseCut]
  split <;> rfl

theorem contiguousCover_setLast_cons (size : Nat) (r : Nat × Nat)
    (t : List (Nat × Nat)) (lo : Nat) (ht : t ≠ []) :
    contiguousCover (setLast size (r :: t)) lo size
      = ((r.1 == lo) && contiguousCover (setLast size t) r.2 size) := by
  cases t with
  | nil => exact absurd rfl ht
  | cons r' rest =>
      cases rest with
      | nil => rfl
      | cons r'' rest' => rfl

/-- The greedy split hands worker `i + 1` the start where worker `i`
stopped, so with the final `ranges.back().second = bits.size()` patch the
produced ranges always cover `[cur, size)` contiguously. -/
theorem buildRanges_cover (size : Nat) (avg : ℚ) (dp : Nat → Int) :
    ∀ w cur, 1 ≤ w →
      contiguousCover (setLast size (buildRanges size avg dp cur w)) cur size = true := by
  intro w
  induction w with
  | zero => intro cur h; exact absurd h (by omega)
  | succ w ih =>
      intro cur _
      cases w with
      | zero =>
          show contiguousCover (setLast size [(chooseCut size avg dp cur).1]) cur size = true
          show contiguousCover [((chooseCut size avg dp cur).1.1, size)] cur size = true
          rw [chooseCut_fst_fst]
          simp [contiguousCover]
      | succ w' =>
          have hne : buildRanges size avg dp (chooseCut size avg dp cur).2 (w' + 1) ≠ [] := by
            show (chooseCut size avg dp _).1
              :: buildRanges size avg dp _ w' ≠ []
            exact List.cons_ne_nil _ _
          show contiguousCover (setLast size ((chooseCut size avg dp cur).1
              :: buildRanges size avg dp (chooseCut size avg dp cur).2 (w' + 1))) cur size
            = true
          rw [contiguousCover_setLast_cons _ _ _ _ hne, chooseCut_fst_fst,
            ← chooseCut_snd_eq, ih _ (by omega)]
          simp

/-- **C6**: the dp pass of `FenwickTreePipeline` / `FenwickTreePipelineSemiStatic`
does compute the expected update traffic — `dp[k] = lowbit k`, which equals the
number of start positions in `[1, n]` whose update walk visits `k` — and
`total` is the sum of all `dp[k]`; the produced ranges are a contiguous cover
of `[1, n + 1)`.  The aggregate variant's dp pass, whose propagation line is
missing, instead leaves `dp[k] = 1` everywhere, and the cut rule compares
`labs` (truncated) distances, which need not pick the run whose traffic is
truly closest to `total / W` (see the counterexample). -/
theorem c6_dp_traffic_and_split (n W k : Nat) (hW : 1 ≤ W) (hk1 : 1 ≤ k)
    (hkn : k ≤ n) :
    (dpPass n).1 k = (lowbit k : Int) ∧
    ((Finset.Icc 1 n).filter (fun j => onWalk j k)).card = lowbit k ∧
    (dpPass n).2 = ∑ x ∈ Finset.Icc 1 n, (((dpPass n).1 x : Int) : ℚ) ∧
    (dpPassAggregate n).1 k = 1 ∧
    contiguousCover (initialize_ranges n W) 1 (n + 1) = true ∧
    contiguousCover (initialize_rangesAggregate n W) 1 (n + 1) = true := by
  refine ⟨dpPass_fst n k hk1 hkn, visitors_card n k hk1 hkn, ?_,
    dpPassAggregate_fst n k hk1 hkn, buildRanges_cover (n + 1) _ _ W 1 hW,
    buildRanges_cover (n + 1) _ _ W 1 hW⟩
  rw [dpPass_snd, show Finset.Icc 1 n = Finset.Ioc 0 n from Nat.Icc_succ_left 0 n]
  exact Finset.sum_congr rfl fun x hx => by
    simp only [Finset.mem_Ioc] at hx
    rw [dpPass_fst n x (by omega) hx.2]

/-- The original C6 claim fails in two ways.  (1) In
`FenwickTreePipelineAggregate::initialize_ranges` the propagation line is
missing, so `dp[2] = 1` although two start positions (`1` and `2`) visit
cell `2`.  (2) With `N = 8`, `W = 6` (`total = 20`, `average = 10/3`),
worker 0 is assigned `[1, 4)` with traffic `4`, although the run `[1, 3)`
has traffic `3`, strictly closer to the average: the backtrack test compares
`labs` of the distances, and both truncate to `0`. -/
theorem c6_counterexample :
    (dpPassAggregate 2).1 2 = 1 ∧
    ((Finset.Icc 1 2).filter (fun j => onWalk j 2)).card = 2 ∧
    (initialize_ranges 8 6).head? = some (1, 4) ∧
    ((dpPass 8).1 1 + (dpPass 8).1 2 + (dpPass 8).1 3 : Int) = 4 ∧
    ((dpPass 8).1 1 + (dpPass 8).1 2 : Int) = 3 ∧
    |(3 : ℚ) - (dpPass 8).2 / 6| < |(4 : ℚ) - (dpPass 8).2 / 6| := by
  have h20 : (dpPass 8).2 = 20 := by
    norm_num [dpPass, dpStep, lowbit, lowbitAux, List.range']
  refine ⟨dpPassAggregate_fst 2 2 (by norm_num) (by norm_num), ?_, ?_, ?_, ?_, ?_⟩
  · rw [visitors_card 2 2 (by norm_num) (by norm_num)]
    norm_num [lowbit, lowbitAux]
  · norm_num [initialize_ranges, dpPass, dpStep, buildRanges, chooseCut, accLoop,
      setLast, labs, qtrunc, lowbit, lowbitAux, List.range']
  · norm_num [dpPass, dpStep, lowbit, lowbitAux, List.range']
  · norm_num [dpPass, dpStep, lowbit, lowbitAux, List.range']
  · rw [h20]
    have e1 : |(3 : ℚ) - 20 / 6| = 1 / 3 := by
      rw [abs_of_nonpos (by norm_num)]
      norm_num
    have e2 : |(4 : ℚ) - 20 / 6| = 2 / 3 := by
      rw [abs_of_nonneg (by norm_num)]
      norm_num
    rw [e1, e2]
    norm_num

theorem c6_witness :
    (dpPass 4).1 4 = 4 ∧
    ((Finset.Icc 1 4).filter (fun j => onWalk j 4)).card = 4 ∧
    (dpPass 4).2 = ∑ x ∈ Finset.Icc 1 4, (((dpPass 4).1 x : Int) : ℚ) ∧
    (dpPassAggregate 4).1 4 = 1 ∧
    contiguousCover (initialize_ranges 4 2) 1 5 = true ∧
    contiguousCover (initialize_rangesAggregate 4 2) 1 5 = true := by
  obtain ⟨h1, h2, h3, h4, h5, h6⟩ :=
    c6_dp_traffic_and_split 4 2 4 (by norm_num) (by norm_num) (by norm_num)
  have hlb : lowbit 4 = 4 := by norm_num [lowbit, lowbitAux]
  refine ⟨?_, ?_, h3, h4, h5, h6⟩
  · rw [h1, hlb]
    norm_num
  · rw [h2, hlb]

/-- The `step` member of `FenwickTreePipelineSemiStatic` (src/fenwick.h:278):
the constructor argument is forced odd by `step((step & ~1) + 1)`. -/
def oddStep (s : Nat) : Nat := s / 2 * 2 + 1

/-- The "grow right" arm of the rebalance block (src/fenwick.h:338-340 and
352-354): `ranges[t].second += step; ranges[t+1].first += step`. -/
def shiftRight (ranges : Nat → Nat × Nat) (t step : Nat) : Nat → Nat × Nat :=
  fun i => if i = t then ((ranges t).1, (ranges t).2 + step)
    else if i = t + 1 then ((ranges (t + 1)).1 + step, (ranges (t + 1)).2)
    else ranges i

/-- The "grow left" arm of the rebalance block (src/fenwick.h:343-345 and
349-351): `ranges[t].first -= step; ranges[t-1].second -= step`. -/
def shiftLeft (ranges : Nat → Nat × Nat) (t step : Nat) : Nat → Nat × Nat :=
  fun i => if i = t then ((ranges t).1 - step, (ranges t).2)
    else if i = t - 1 then ((ranges (t - 1)).1, (ranges (t - 1)).2 - step)
    else ranges i

/-- The semi-static rebalance block (src/fenwick.h:334-357), executed under
`omp single nowait` by one arbitrary worker `t`: the first range may only
grow right, the last only left, and a middle range picks a side by the
parity of `first + second`; every move is guarded so the ranges stay inside
`[1, size)`. -/
def rebalance (size step : Nat) (ranges : Nat → Nat × Nat) (t : Nat) : Nat → Nat × Nat :=
  if (ranges t).1 = 1 then
    if (ranges t).2 + step < size then shiftRight ranges t step else ranges
  else if (ranges t).2 = size then
    if 1 ≤ (ranges t).1 - step then shiftLeft ranges t step else ranges
  else
    if ((ranges t).1 + (ranges t).2) % 2 = 0 ∧ 1 ≤ (ranges t).1 - step then
      shiftLeft ranges t step
    else if (ranges t).2 + step < size then shiftRight ranges t step
    else ranges

/-- Contiguous-cover invariant on the function view of `ranges`: the first
range starts at `1`, the last ends at `size`, and each range ends where the
next begins. -/
def chainCover (W size : Nat) (ranges : Nat → Nat × Nat) : Prop :=
  (ranges 0).1 = 1 ∧ (ranges (W - 1)).2 = size ∧
  ∀ i, i + 1 < W → (ranges i).2 = (ranges (i + 1)).1

theorem shiftRight_apply (ranges : Nat → Nat × Nat) (t step i : Nat) :
    shiftRight ranges t step i
      = if i = t then ((ranges t).1, (ranges t).2 + step)
        else if i = t + 1 then ((ranges (t + 1)).1 + step, (ranges (t + 1)).2)
        else ranges i := rfl

theorem shiftLeft_apply (ranges : Nat → Nat × Nat) (t step i : Nat) :
    shiftLeft ranges t step i
      = if i = t then ((ranges t).1 - step, (ranges t).2)
        else if i = t - 1 then ((ranges (t - 1)).1, (ranges (t - 1)).2 - step)
        else ranges i := rfl

theorem shiftRight_ok (W size step : Nat) (ranges : Nat → Nat × Nat) (t : Nat)
    (ht1 : t + 1 < W) (hcov : chainCover W size ranges) :
    chainCover W size (shiftRight ranges t step) ∧
    (shiftRight ranges t step (t + 1)).1 = (ranges (t + 1)).1 + step ∧
    (∀ i, i ≠ t + 1 → (shiftRight ranges t step i).1 = (ranges i).1) ∧
    (∀ i, i ≠ t → (shiftRight ranges t step i).2 = (ranges i).2) := by
  obtain ⟨h0, hend, hchain⟩ := hcov
  have hfst : ∀ i, i ≠ t + 1 → (shiftRight ranges t step i).1 = (ranges i).1 := by
    intro i hi
    rw [shiftRight_apply]
    by_cases h1 : i = t
    · rw [if_pos h1, h1]
    · rw [if_neg h1, if_neg hi]
  have hsnd : ∀ i, i ≠ t → (shiftRight ranges t step i).2 = (ranges i).2 := by
    intro i hi
    rw [shiftRight_apply]
    by_cases h2 : i = t + 1
    · rw [if_neg hi, if_pos h2, h2]
    · rw [if_neg hi, if_neg h2]
  have htop : (shiftRight ranges t step (t + 1)).1 = (ranges (t + 1)).1 + step := by
    rw [shiftRight_apply, if_neg (by omega), if_pos rfl]
  refine ⟨⟨?_, ?_, ?_⟩, htop, hfst, hsnd⟩
  · rw [hfst 0 (by omega)]
    exact h0
  · rw [hsnd (W - 1) (by omega)]
    exact hend
  · intro i hi
    by_cases hit : i = t
    · subst hit
      rw [htop]
      have h1 : (shiftRight ranges i step i).2 = (ranges i).2 + step := by
        rw [shiftRight_apply, if_pos rfl]
      rw [h1, hchain i hi]
    · rw [hsnd i hit]
      by_cases hit1 : i + 1 = t + 1
      · exact absurd (by omega : i = t) hit
      · rw [hfst (i + 1) hit1]
        exact hchain i hi

theorem shiftLeft_ok (W size step : Nat) (ranges : Nat → Nat × Nat) (t : Nat)
    (ht0 : 0 < t) (ht : t < W) (hcov : chainCover W size ranges) :
    chainCover W size (shiftLeft ranges t step) ∧
    (shiftLeft ranges t step t).1 = (ranges t).1 - step ∧
    (∀ i, i ≠ t → (shiftLeft ranges t step i).1 = (ranges i).1) ∧
    (∀ i, i ≠ t - 1 → (shiftLeft ranges t step i).2 = (ranges i).2) := by
  obtain ⟨h0, hend, hchain⟩ := hcov
  have hfst : ∀ i, i ≠ t → (shiftLeft ranges t step i).1 = (ranges i).1 := by
    intro i hi
    rw [shiftLeft_apply]
    by_cases h1 : i = t - 1
    · rw [if_neg hi, if_pos h1, h1]
    · rw [if_neg hi, if_neg h1]
  have hsnd : ∀ i, i ≠ t - 1 → (shiftLeft ranges t step i).2 = (ranges i).2 := by
    intro i hi
    rw [shiftLeft_apply]
    by_cases h1 : i = t
    · rw [if_pos h1, h1]
    · rw [if_neg h1, if_neg hi]
  have hleft : (shiftLeft ranges t step t).1 = (ranges t).1 - step := by
    rw [shiftLeft_apply, if_pos rfl]
  refine ⟨⟨?_, ?_, ?_⟩, hleft, hfst, hsnd⟩
  · rw [hfst 0 (by omega)]
    exact h0
  · rw [hsnd (W - 1) (by omega)]
    exact hend
  · intro i hi
    by_cases hit : i + 1 = t
    · have hi1 : i = t - 1 := by omega
      have h1 : (shiftLeft ranges t step i).2 = (ranges i).2 - step := by
        rw [shiftLeft_apply, if_neg (by omega), if_pos hi1, hi1]
      rw [h1, hit, hleft, hchain i hi, hit]
    · rw [hfst (i + 1) hit]
      by_cases hit2 : i = t - 1
      · exact absurd (by omega : i + 1 = t) hit
      · rw [hsnd i hit2]
        exact hchain i hi

/-- Packaged conclusion for a right move of the rebalance block. -/
theorem shiftRight_conclusion (W size st : Nat) (ranges : Nat → Nat × Nat) (t : Nat)
    (ht1 : t + 1 < W) (hcov : chainCover W size ranges) :
    chainCover W size (shiftRight ranges t st) ∧
    ∃ j, 0 < j ∧ j < W ∧
      ((shiftRight ranges t st j).1 = (ranges j).1 + st ∨
        (shiftRight ranges t st j).1 + st = (ranges j).1) ∧
      (shiftRight ranges t st (j - 1)).2 = (shiftRight ranges t st j).1 ∧
      (∀ i, i ≠ j → (shiftRight ranges t st i).1 = (ranges i).1) ∧
      (∀ i, i ≠ j - 1 → (shiftRight ranges t st i).2 = (ranges i).2) := by
  obtain ⟨hc, htop, hfst, hsnd⟩ := shiftRight_ok W size st ranges t ht1 hcov
  refine ⟨hc, t + 1, by omega, ht1, Or.inl htop, ?_, hfst, ?_⟩
  · have h1 : t + 1 - 1 = t := by omega
    rw [h1, htop, shiftRight_apply, if_pos rfl]
    show (ranges t).2 + st = (ranges (t + 1)).1 + st
    rw [hcov.2.2 t ht1]
  · intro i hi
    exact hsnd i (by omega)

/-- Packaged conclusion for a left move of the rebalance block. -/
theorem shiftLeft_conclusion (W size st : Nat) (ranges : Nat → Nat × Nat) (t : Nat)
    (ht0 : 0 < t) (ht : t < W) (hg : 1 ≤ (ranges t).1 - st)
    (hcov : chainCover W size ranges) :
    chainCover W size (shiftLeft ranges t st) ∧
    ∃ j, 0 < j ∧ j < W ∧
      ((shiftLeft ranges t st j).1 = (ranges j).1 + st ∨
        (shiftLeft ranges t st j).1 + st = (ranges j).1) ∧
      (shiftLeft ranges t st (j - 1)).2 = (shiftLeft ranges t st j).1 ∧
      (∀ i, i ≠ j → (shiftLeft ranges t st i).1 = (ranges i).1) ∧
      (∀ i, i ≠ j - 1 → (shiftLeft ranges t st i).2 = (ranges i).2) := by
  obtain ⟨hc, hleft, hfst, hsnd⟩ := shiftLeft_ok W size st ranges t ht0 ht hcov
  refine ⟨hc, t, ht0, ht, Or.inr ?_, ?_, hfst, hsnd⟩
  · rw [hleft]
    omega
  · have h1 : (shiftLeft ranges t st (t - 1)).2 = (ranges (t - 1)).2 - st := by
      rw [shiftLeft_apply, if_neg (by omega), if_pos rfl]
    have h2 : t - 1 + 1 = t := by omega
    have h3 := hcov.2.2 (t - 1) (by omega)
    rw [h2] at h3
    rw [h1, hleft, h3]

/-- **C7**: after every `FenwickTreePipelineSemiStatic::batchAdd`, the
rebalance block leaves the worker ranges a contiguous cover of `[1, size)`,
and moves AT MOST one interior boundary, by exactly the (odd) `step`: all
four guarded moves can be rejected, in which case no boundary shifts at all
(see the counterexample), so the claimed "exactly one" does not hold. -/
theorem c7_rebalance_contiguity (W size s t : Nat) (ranges : Nat → Nat × Nat)
    (hW : 1 ≤ W) (ht : t < W) (hcov : chainCover W size ranges) :
    oddStep s % 2 = 1 ∧
    chainCover W size (rebalance size (oddStep s) ranges t) ∧
    ((∀ i, rebalance size (oddStep s) ranges t i = ranges i) ∨
      ∃ j, 0 < j ∧ j < W ∧
        ((rebalance size (oddStep s) ranges t j).1 = (ranges j).1 + oddStep s ∨
          (rebalance size (oddStep s) ranges t j).1 + oddStep s = (ranges j).1) ∧
        (rebalance size (oddStep s) ranges t (j - 1)).2
          = (rebalance size (oddStep s) ranges t j).1 ∧
        (∀ i, i ≠ j → (rebalance size (oddStep s) ranges t i).1 = (ranges i).1) ∧
        (∀ i, i ≠ j - 1 →
          (rebalance size (oddStep s) ranges t i).2 = (ranges i).2)) := by
  have hodd : oddStep s % 2 = 1 := by unfold oddStep; omega
  refine ⟨hodd, ?_⟩
  by_cases hb1 : (ranges t).1 = 1
  · by_cases hg1 : (ranges t).2 + oddStep s < size
    · have ht1 : t + 1 < W := by
        by_contra hc
        have h1 : t = W - 1 := by omega
        have h2 := hcov.2.1
        rw [← h1] at h2
        omega
      have hreb : rebalance size (oddStep s) ranges t = shiftRight ranges t (oddStep s) := by
        unfold rebalance
        rw [if_pos hb1, if_pos hg1]
      rw [hreb]
      obtain ⟨hc, hex⟩ := shiftRight_conclusion W size (oddStep s) ranges t ht1 hcov
      exact ⟨hc, Or.inr hex⟩
    · have hreb : rebalance size (oddStep s) ranges t = ranges := by
        unfold rebalance
        rw [if_pos hb1, if_neg hg1]
      rw [hreb]
      exact ⟨hcov, Or.inl fun i => rfl⟩
  · by_cases hb2 : (ranges t).2 = size
    · by_cases hg2 : 1 ≤ (ranges t).1 - oddStep s
      · have ht0 : 0 < t := by
          by_contra hc
          have h0 : t = 0 := by omega
          rw [h0] at hb1
          exact hb1 hcov.1
        have hreb : rebalance size (oddStep s) ranges t = shiftLeft ranges t (oddStep s) := by
          unfold rebalance
          rw [if_neg hb1, if_pos hb2, if_pos hg2]
        rw [hreb]
        obtain ⟨hc, hex⟩ := shiftLeft_conclusion W size (oddStep s) ranges t ht0 ht hg2 hcov
        exact ⟨hc, Or.inr hex⟩
      · have hreb : rebalance size (oddStep s) ranges t = ranges := by
          unfold rebalance
          rw [if_neg hb1, if_pos hb2, if_neg hg2]
        rw [hreb]
        exact ⟨hcov, Or.inl fun i => rfl⟩
    · by_cases hg3 : ((ranges t).1 + (ranges t).2) % 2 = 0 ∧ 1 ≤ (ranges t).1 - oddStep s
      · have ht0 : 0 < t := by
          by_contra hc
          have h0 : t = 0 := by omega
          rw [h0] at hb1
          exact hb1 hcov.1
        have hreb : rebalance size (oddStep s) ranges t = shiftLeft ranges t (oddStep s) := by
          unfold rebalance
          rw [if_neg hb1, if_neg hb2, if_pos hg3]
        rw [hreb]
        obtain ⟨hc, hex⟩ :=
          shiftLeft_conclusion W size (oddStep s) ranges t ht0 ht hg3.2 hcov
        exact ⟨hc, Or.inr hex⟩
      · by_cases hg4 : (ranges t).2 + oddStep s < size
        · have ht1 : t + 1 < W := by
            by_contra hc
            have h1 : t = W - 1 := by omega
            rw [h1] at hb2
            exact hb2 hcov.2.1
          have hreb : rebalance size (oddStep s) ranges t
              = shiftRight ranges t (oddStep s) := by
            unfold rebalance
            rw [if_neg hb1, if_neg hb2, if_neg hg3, if_pos hg4]
          rw [hreb]
          obtain ⟨hc, hex⟩ := shiftRight_conclusion W size (oddStep s) ranges t ht1 hcov
          exact ⟨hc, Or.inr hex⟩
        · have hreb : rebalance size (oddStep s) ranges t = ranges := by
            unfold rebalance
            rw [if_neg hb1, if_neg hb2, if_neg hg3, if_neg hg4]
          rw [hreb]
          exact ⟨hcov, Or.inl fun i => rfl⟩

/-- With `N = 1`, `W = 1` (a configuration the constructor accepts and
`initialize_ranges` maps to the single range `[1, 2)`), every guard of the
rebalance block fails — the sole range starts at `1` and `second + step <
bits.size()` is false — so NO boundary is shifted by `batchAdd`, refuting
the claimed "exactly one boundary per batch". -/
theorem c7_counterexample :
    initialize_ranges 1 1 = [(1, 2)] ∧
    oddStep 127 = 127 ∧
    rebalance 2 127 (fun i => if i = 0 then (1, 2) else (0, 0)) 0
      = (fun i => if i = 0 then (1, 2) else (0, 0)) := by
  refine ⟨?_, rfl, rfl⟩
  norm_num [initialize_ranges, dpPass, dpStep, buildRanges, chooseCut, accLoop,
    setLast, labs, qtrunc, lowbit, lowbitAux, List.range']

def c7R : Nat → Nat × Nat := fun i => if i = 0 then (1, 4) else (4, 9)

theorem c7_witness :
    oddStep 0 % 2 = 1 ∧
    chainCover 2 9 (rebalance 9 (oddStep 0) c7R 0) ∧
    ((∀ i, rebalance 9 (oddStep 0) c7R 0 i = c7R i) ∨
      ∃ j, 0 < j ∧ j < 2 ∧
        ((rebalance 9 (oddStep 0) c7R 0 j).1 = (c7R j).1 + oddStep 0 ∨
          (rebalance 9 (oddStep 0) c7R 0 j).1 + oddStep 0 = (c7R j).1) ∧
        (rebalance 9 (oddStep 0) c7R 0 (j - 1)).2
          = (rebalance 9 (oddStep 0) c7R 0 j).1 ∧
        (∀ i, i ≠ j → (rebalance 9 (oddStep 0) c7R 0 i).1 = (c7R i).1) ∧
        (∀ i, i ≠ j - 1 → (rebalance 9 (oddStep 0) c7R 0 i).2 = (c7R i).2)) :=
  c7_rebalance_contiguity 2 9 0 0 c7R (by norm_num) (by norm_num)
    ⟨rfl, rfl, by
      intro i hi
      have h0 : i = 0 := by omega
      subst h0
      rfl⟩

/-- Deposit phase of `FenwickTreePipelineAggregate::batchAdd`
(src/fenwick.h:458-485): for each operation, `x = operation.index + 1`,
the jump of src/fenwick.h:470-480 when `x < lower`, then
`if (x < upper) local_bits[x] += val`. -/
def depositLoop (lower upper : Nat) (ops : List Operation) (lb : Nat → Int) : Nat → Int :=
  ops.foldl (fun b op =>
    if jump (op.index + 1) lower < upper then
      fun j => if j = jump (op.index + 1) lower then b j + op.value else b j
    else b) lb

/-- One iteration of the in-stripe propagation loop (src/fenwick.h:487-496):
`next_x = x + (x & -x); val_agg = local_bits[x];
if (next_x < upper) local_bits[next_x] += val_agg;
bits[x] += val_agg; local_bits[x] = 0`.  State is `(local_bits, bits)`. -/
def propStep (upper x : Nat) (s : (Nat → Int) × (Nat → Int)) : (Nat → Int) × (Nat → Int) :=
  (fun j => if j = x then 0
    else if x + lowbit x < upper ∧ j = x + lowbit x then s.1 j + s.1 x else s.1 j,
   fun j => if j = x then s.2 j + s.1 x else s.2 j)

/-- The propagation loop `for (x = lower; x < upper; ++x)`, structural in
`fuel = upper - x`. -/
def propLoop (upper : Nat) : Nat → Nat → ((Nat → Int) × (Nat → Int)) → (Nat → Int) × (Nat → Int)
  | _, 0, s => s
  | x, fuel + 1, s =>
      if x < upper then propLoop upper (x + 1) fuel (propStep upper x s) else s

/-- One worker of `FenwickTreePipelineAggregate::batchAdd`: deposit phase
over the whole batch, then the in-stripe propagation sweep. -/
def aggWorker (lower upper : Nat) (ops : List Operation)
    (s : (Nat → Int) × (Nat → Int)) : (Nat → Int) × (Nat → Int) :=
  propLoop upper lower (upper - lower) (depositLoop lower upper ops s.1, s.2)

/-- `FenwickTreePipelineAggregate::batchAdd` (src/fenwick.h:452-498) over
all workers, sequentialised: each worker reads and writes `local_bits` only
inside its own stripe `[lower, upper)` (deposits land at `jump` results,
which never fall below `lower`, and are guarded by `x < upper`; the sweep
is bounded by the stripe), and the stripes are pairwise disjoint. -/
def aggregateBatchAdd (ranges : List (Nat × Nat)) (ops : List Operation)
    (s : (Nat → Int) × (Nat → Int)) : (Nat → Int) × (Nat → Int) :=
  ranges.foldl (fun s r => aggWorker r.1 r.2 ops s) s

/-- Deposits touch only cells in `[lower, upper)`. -/
theorem depositLoop_outside (lower upper : Nat) (hlow : 1 ≤ lower)
    (hl63 : lower < 2 ^ 63) (ops : List Operation) :
    ∀ lb k, (k < lower ∨ upper ≤ k) → depositLoop lower upper ops lb k = lb k := by
  induction ops with
  | nil => intro lb k _; rfl
  | cons op rest ih =>
      intro lb k hk
      show depositLoop lower upper rest
        (if jump (op.index + 1) lower < upper then
          fun j => if j = jump (op.index + 1) lower then lb j + op.value else lb j
        else lb) k = lb k
      rw [ih _ k hk]
      by_cases hup : jump (op.index + 1) lower < upper
      · rw [if_pos hup]
        have hge : lower ≤ jump (op.index + 1) lower := by
          rcases le_or_lt lower (op.index + 1) with hc | hc
          · rw [jump_of_le _ _ hc]; exact hc
          · exact (jump_lt_spec (by omega) hc hl63).1
        rw [if_neg (by omega)]
      · rw [if_neg hup]

/-- The ascending sweep never writes behind the cursor, clears everything it
passes, and never writes at or beyond `upper`. -/
theorem propLoop_clears (upper : Nat) : ∀ fuel x s, upper ≤ x + fuel →
    (∀ k, k < x → (propLoop upper x fuel s).1 k = s.1 k) ∧
    (∀ k, x ≤ k → k < upper → (propLoop upper x fuel s).1 k = 0) ∧
    (∀ k, upper ≤ k → (propLoop upper x fuel s).1 k = s.1 k) := by
  intro fuel
  induction fuel with
  | zero =>
      intro x s hf
      exact ⟨fun k _ => rfl, fun k h1 h2 => absurd (by omega : upper ≤ k) (by omega),
        fun k _ => rfl⟩
  | succ fuel ih =>
      intro x s hf
      by_cases hx : x < upper
      · have hstep : propLoop upper x (fuel + 1) s
            = propLoop upper (x + 1) fuel (propStep upper x s) := by
          show (if x < upper then propLoop upper (x + 1) fuel (propStep upper x s) else s)
            = _
          rw [if_pos hx]
        obtain ⟨ih1, ih2, ih3⟩ := ih (x + 1) (propStep upper x s) (by omega)
        have hlbx : 0 ≤ lowbit x := Nat.zero_le _
        refine ⟨?_, ?_, ?_⟩
        · intro k hk
          rw [hstep, ih1 k (by omega)]
          show (if k = x then 0
            else if x + lowbit x < upper ∧ k = x + lowbit x then s.1 k + s.1 x else s.1 k) = s.1 k
          rw [if_neg (by omega), if_neg (by omega)]
        · intro k hk1 hk2
          rcases Nat.eq_or_lt_of_le hk1 with hkx | hkx
          · rw [hstep, ih1 k (by omega)]
            show (if k = x then 0
              else if x + lowbit x < upper ∧ k = x + lowbit x then s.1 k + s.1 x else s.1 k) = 0
            rw [if_pos hkx.symm]
          · rw [hstep]
            exact ih2 k (by omega) hk2
        · intro k hk
          rw [hstep, ih3 k hk]
          show (if k = x then 0
            else if x + lowbit x < upper ∧ k = x + lowbit x then s.1 k + s.1 x else s.1 k) = s.1 k
          rw [if_neg (by omega), if_neg (fun hc => by omega)]
      · have hstep : propLoop upper x (fuel + 1) s = s := by
          show (if x < upper then propLoop upper (x + 1) fuel (propStep upper x s) else s) = _
          rw [if_neg hx]
        exact ⟨fun k _ => by rw [hstep], fun k h1 h2 => absurd h2 (by omega),
          fun k _ => by rw [hstep]⟩

/-- A worker leaves an all-zero `local_bits` all-zero again. -/
theorem aggWorker_zero (lower upper : Nat) (hlow : 1 ≤ lower)
    (hl63 : lower < 2 ^ 63) (ops : List Operation)
    (s : (Nat → Int) × (Nat → Int)) (hz : ∀ k, s.1 k = 0) :
    ∀ k, (aggWorker lower upper ops s).1 k = 0 := by
  intro k
  obtain ⟨h1, h2, h3⟩ := propLoop_clears upper (upper - lower) lower
    (depositLoop lower upper ops s.1, s.2) (by omega)
  by_cases hin : lower ≤ k ∧ k < upper
  · exact h2 k hin.1 hin.2
  · have hout : k < lower ∨ upper ≤ k := by omega
    have hdep : depositLoop lower upper ops s.1 k = s.1 k :=
      depositLoop_outside lower upper hlow hl63 ops s.1 k hout
    rcases hout with hlt | hge
    · rw [show (aggWorker lower upper ops s).1 k
          = (propLoop upper lower (upper - lower)
              (depositLoop lower upper ops s.1, s.2)).1 k from rfl,
        h1 k hlt]
      show depositLoop lower upper ops s.1 k = 0
      rw [hdep, hz]
    · rw [show (aggWorker lower upper ops s).1 k
          = (propLoop upper lower (upper - lower)
              (depositLoop lower upper ops s.1, s.2)).1 k from rfl,
        h3 k hge]
      show depositLoop lower upper ops s.1 k = 0
      rw [hdep, hz]

/-- **C8**: at the end of every `FenwickTreePipelineAggregate::batchAdd`,
the shared scratch array is all-zero again: each worker's deposits stay in
its stripe `[lower, upper)` (the jump result never falls below `lower` and
the write is guarded by `x < upper`), and the ascending propagation sweep
zeroes each visited cell while only ever forwarding to strictly larger
in-stripe indices.  Stated for any stripe list with `1 ≤ lower < 2^63`
(every range `initialize_ranges` produces satisfies this) and any incoming
all-zero `local_bits`, so it applies inductively batch after batch, starting
from the zero-initialised constructor state. -/
theorem c8_local_bits_zero (rs : List (Nat × Nat)) (ops : List Operation)
    (s : (Nat → Int) × (Nat → Int))
    (hrs : ∀ r ∈ rs, 1 ≤ r.1 ∧ r.1 < 2 ^ 63) (hz : ∀ k, s.1 k = 0) (k : Nat) :
    (aggregateBatchAdd rs ops s).1 k = 0 := by
  induction rs generalizing s with
  | nil => exact hz k
  | cons r rest ih =>
      show (aggregateBatchAdd rest ops (aggWorker r.1 r.2 ops s)).1 k = 0
      exact ih (aggWorker r.1 r.2 ops s)
        (fun r' hr' => hrs r' (List.mem_cons_of_mem r hr'))
        (aggWorker_zero r.1 r.2 (hrs r (List.mem_cons_self r rest)).1
          (hrs r (List.mem_cons_self r rest)).2 ops s hz)

theorem c8_witness :
    (aggregateBatchAdd [(1, 3), (3, 4)] [Operation.mk 'a' 1 1]
      (fun _ => 0, fun _ => 0)).1 2 = 0 :=
  c8_local_bits_zero [(1, 3), (3, 4)] [Operation.mk 'a' 1 1]
    (fun _ => 0, fun _ => 0)
    (by intro r hr; fin_cases hr <;> norm_num) (fun _ => rfl) 2
